import Mathlib

/-!
Verification of the Shark OpenML HTTP client specification and of the DTLZ2
benchmark function.

The repository provides `include/shark/OpenML/Connection.h` (declaration of the
`Connection` class: `get`/`post`/`del` returning JSON, an ordered parameter
list with a file-upload name convention, a socket read buffer and a mutex) and
`include/shark/ObjectiveFunctions/Benchmarks/DTLZ2.h` (the DTLZ2 objective
function, fully inline).

The bodies of the Connection request/response machinery (request encoder,
response reader, the three request methods) are declared in the header but
their implementation file is not part of the supplied sources; those
components are modelled from the specification, as marked on each definition.
The DTLZ2 definitions are translated directly from the source header.

Byte strings are modelled as `List Char` with each character standing for one
octet.
-/

namespace SharkSpec

/-- One wire byte string; each `Char` stands for one octet. -/
abbrev Str := List Char

/-- CR LF, the HTTP line terminator. -/
def crlf : Str := ['\r', '\n']

/-- The double-quote octet (0x22). -/
def dq : Char := Char.ofNat 34

/-! ### Generic byte-string utilities -/

/-- Remove an expected literal from the front of a byte string; `none` when the
input does not start with it. -/
def dropLit : Str → Str → Option Str
  | [], s => some s
  | _ :: _, [] => none
  | p :: ps, c :: cs => if c = p then dropLit ps cs else none

theorem dropLit_append (p s : Str) : dropLit p (p ++ s) = some s := by
  induction p with
  | nil => rfl
  | cons c cs ih => simp [dropLit, ih]

theorem dropLit_length_le (p s r : Str) (h : dropLit p s = some r) :
    r.length ≤ s.length := by
  induction p generalizing s with
  | nil =>
    simp only [dropLit, Option.some.injEq] at h
    subst h
    exact Nat.le_refl _
  | cons c cs ih =>
    cases s with
    | nil => simp [dropLit] at h
    | cons d ds =>
      simp only [dropLit] at h
      by_cases hd : d = c
      · simp only [hd, if_pos rfl] at h
        have := ih ds h
        simp only [List.length_cons]
        omega
      · simp [hd] at h

/-- Split at the first occurrence of a character: the part before it and the
remainder starting with it (or `[]` when absent). -/
def breakAt (q : Char) (s : Str) : Str × Str :=
  (s.takeWhile (fun c => c ≠ q), s.dropWhile (fun c => c ≠ q))

theorem breakAt_append (q : Char) (a b : Str) (ha : q ∉ a) :
    breakAt q (a ++ q :: b) = (a, q :: b) := by
  induction a with
  | nil => simp [breakAt]
  | cons c cs ih =>
    have hc : decide (c ≠ q) = true := by
      simp only [decide_eq_true_eq]
      intro h
      exact ha (by simp [h])
    have hcs : q ∉ cs := fun h => ha (List.mem_cons_of_mem _ h)
    have ih' := ih hcs
    simp only [breakAt, List.cons_append, List.takeWhile_cons, List.dropWhile_cons, hc,
      if_true, Prod.mk.injEq] at ih' ⊢
    exact ⟨by rw [ih'.1], ih'.2⟩

/-- Split a byte string at every occurrence of a separator character.  The
result always has one more entry than there are separators, so it is never
empty. -/
def splitChar (sep : Char) : Str → List Str
  | [] => [[]]
  | c :: rest =>
    if c = sep then [] :: splitChar sep rest
    else
      match splitChar sep rest with
      | [] => [[c]]
      | t :: ts => (c :: t) :: ts

theorem splitChar_ne_nil (sep : Char) (s : Str) : splitChar sep s ≠ [] := by
  induction s with
  | nil => simp [splitChar]
  | cons c rest ih =>
    by_cases h : c = sep
    · simp [splitChar, h]
    · simp only [splitChar, if_neg h]
      cases hs : splitChar sep rest with
      | nil => simp
      | cons t ts => simp

theorem splitChar_of_not_mem (sep : Char) (s : Str) (h : sep ∉ s) :
    splitChar sep s = [s] := by
  induction s with
  | nil => rfl
  | cons c rest ih =>
    have hc : c ≠ sep := fun hh => h (by simp [hh])
    have hrest : sep ∉ rest := fun hh => h (List.mem_cons_of_mem _ hh)
    simp [splitChar, hc, ih hrest]

theorem splitChar_append (sep : Char) (a b : Str) (ha : sep ∉ a) :
    splitChar sep (a ++ sep :: b) = a :: splitChar sep b := by
  induction a with
  | nil => simp [splitChar]
  | cons c cs ih =>
    have hc : c ≠ sep := fun hh => ha (by simp [hh])
    have hcs : sep ∉ cs := fun hh => ha (List.mem_cons_of_mem _ hh)
    simp only [List.cons_append, splitChar, if_neg hc, List.append_eq, ih hcs]

theorem splitChar_append_sep_end (sep : Char) (a : Str) :
    splitChar sep (a ++ [sep]) = splitChar sep a ++ [[]] := by
  induction a with
  | nil => simp [splitChar]
  | cons c cs ih =>
    by_cases hc : c = sep
    · simp [splitChar, hc, ih]
    · simp only [List.cons_append, splitChar, if_neg hc, List.append_eq, ih]
      cases hs : splitChar sep cs with
      | nil => exact absurd hs (splitChar_ne_nil sep cs)
      | cons t ts => simp [hs]

/-! ### Splitting on a multi-character delimiter -/

/-- Prepend a character to the first segment of a split result. -/
def consHead (c : Char) : List Str → List Str
  | [] => [[c]]
  | t :: ts => (c :: t) :: ts

/-- Split a byte string at every occurrence of the (nonempty) delimiter `d`,
scanning left to right; occurrences of `d` are removed. -/
def splitSeq (d : Str) : Str → List Str
  | [] => [[]]
  | c :: rest =>
    if h : d ≠ [] ∧ d.isPrefixOf (c :: rest) then
      [] :: splitSeq d ((c :: rest).drop d.length)
    else consHead c (splitSeq d rest)
termination_by s => s.length
decreasing_by
  · have hdl : 0 < d.length := List.length_pos.mpr h.1
    simp only [List.length_drop, List.length_cons]
    omega
  · simp only [List.length_cons]
    omega

/-- `d` occurs nowhere in `s` (as a contiguous subsequence). -/
abbrev noOccur (d s : Str) : Prop := ∀ i < s.length, ¬ d.isPrefixOf (s.drop i)

/-- The first occurrence of `d` in `a ++ d` is the final one: `d` neither
occurs inside `a` nor straddles the junction.  This is the boundary-collision
freedom the encoder's generated boundary token must guarantee. -/
abbrev cleanFor (d a : Str) : Prop := ∀ i < a.length, ¬ d.isPrefixOf ((a ++ d).drop i)

theorem prefix_of_prefix_append {d x s : Str} (h : d <+: x ++ s)
    (hl : d.length ≤ x.length) : d <+: x := by
  have hd : d = List.take d.length (x ++ s) := List.prefix_iff_eq_take.mp h
  rw [List.take_append_of_le_length hl] at hd
  rw [hd]
  exact List.take_prefix _ _

theorem splitSeq_of_noOccur (d s : Str) (hd : d ≠ []) (h : noOccur d s) :
    splitSeq d s = [s] := by
  induction s with
  | nil => simp [splitSeq]
  | cons c rest ih =>
    have h0 : ¬ d.isPrefixOf (c :: rest) := by
      have := h 0 (by simp)
      simpa using this
    have hrest : noOccur d rest := by
      intro i hi
      have := h (i + 1) (by simp; omega)
      simpa using this
    rw [splitSeq]
    rw [dif_neg (by simp [h0])]
    rw [ih hrest]
    rfl

theorem splitSeq_prepend (d a s : Str) (hd : d ≠ []) (h : cleanFor d a) :
    splitSeq d (a ++ (d ++ s)) = a :: splitSeq d s := by
  induction a with
  | nil =>
    simp only [List.nil_append]
    cases hc : d with
    | nil => exact absurd hc hd
    | cons c d0 =>
      subst hc
      have hpre : (c :: d0 : Str).isPrefixOf (c :: (d0 ++ s)) := by
        rw [List.isPrefixOf_iff_prefix]
        exact List.prefix_append _ s
      rw [List.cons_append]
      rw [splitSeq]
      rw [dif_pos ⟨by simp, hpre⟩]
      have hdrop : (c :: (d0 ++ s)).drop (c :: d0 : Str).length = s :=
        List.drop_left (c :: d0) s
      rw [hdrop]
  | cons c a0 ih =>
    have h0 : ¬ d.isPrefixOf ((c :: a0) ++ d) := by
      have := h 0 (by simp)
      simpa using this
    have ha0 : cleanFor d a0 := by
      intro i hi
      have := h (i + 1) (by simp; omega)
      simpa using this
    have hnot : ¬ d.isPrefixOf (c :: (a0 ++ (d ++ s))) := by
      intro hp
      apply h0
      rw [List.isPrefixOf_iff_prefix] at hp ⊢
      have : (c :: (a0 ++ (d ++ s))) = ((c :: a0) ++ d) ++ s := by simp
      rw [this] at hp
      exact prefix_of_prefix_append hp (by simp; omega)
    simp only [List.cons_append]
    rw [splitSeq]
    rw [dif_neg (by simp [hnot])]
    rw [ih ha0]
    rfl

/-- Splitting the delimiter-joined form recovers each segment, in order. -/
theorem splitSeq_chain (d : Str) (ps : List Str) (tail : Str) (hd : d ≠ [])
    (hp : ∀ p ∈ ps, cleanFor d p) (ht : noOccur d tail) :
    splitSeq d ((ps.map (fun p => p ++ d)).flatten ++ tail) = ps ++ [tail] := by
  induction ps with
  | nil =>
    simp only [List.map_nil, List.flatten_nil, List.nil_append]
    rw [splitSeq_of_noOccur d tail hd ht]
  | cons p ps0 ih =>
    have hstep : ((p :: ps0).map (fun p => p ++ d)).flatten ++ tail
        = p ++ (d ++ ((ps0.map (fun p => p ++ d)).flatten ++ tail)) := by
      simp [List.flatten_cons]
    rw [hstep]
    rw [splitSeq_prepend d p _ hd (hp p (by simp))]
    rw [ih (fun q hq => hp q (by simp [hq]))]
    rfl

/-! ### Percent (URL) encoding

Modelled from the spec: the `RequestEncoder` implementation is declared in
`Connection.h` but its body is not among the supplied sources.  Per the spec,
unreserved characters pass through unescaped and all others are
percent-escaped per the standard URL-encoding rule set. -/

/-- Upper-case hexadecimal digit for a nibble. -/
def hexDigitChr (n : Nat) : Char :=
  if n < 10 then Char.ofNat (48 + n) else Char.ofNat (55 + n)

/-- Numeric value of a hexadecimal digit character (0 for non-digits). -/
def hexVal (c : Char) : Nat :=
  if 48 ≤ c.toNat ∧ c.toNat ≤ 57 then c.toNat - 48
  else if 65 ≤ c.toNat ∧ c.toNat ≤ 70 then c.toNat - 55
  else if 97 ≤ c.toNat ∧ c.toNat ≤ 102 then c.toNat - 87
  else 0

/-- Hexadecimal digit recognizer. -/
def isHexDig (c : Char) : Bool :=
  (48 ≤ c.toNat && c.toNat ≤ 57) || (65 ≤ c.toNat && c.toNat ≤ 70) ||
    (97 ≤ c.toNat && c.toNat ≤ 102)

/-- Unreserved URL characters: letters, digits, `-`, `_`, `.`, `~`. -/
def isUnreserved (c : Char) : Bool :=
  (65 ≤ c.toNat && c.toNat ≤ 90) || (97 ≤ c.toNat && c.toNat ≤ 122) ||
    (48 ≤ c.toNat && c.toNat ≤ 57) ||
    c = '-' || c = '_' || c = '.' || c = '~'

/-- Percent-encode one octet. -/
def pctEncodeChar (c : Char) : Str :=
  if isUnreserved c then [c]
  else ['%', hexDigitChr (c.toNat / 16), hexDigitChr (c.toNat % 16)]

/-- Percent-encode a byte string. -/
def pctEncode (s : Str) : Str := (s.map pctEncodeChar).flatten

/-- Percent-decode a byte string (malformed escapes are left untouched). -/
def pctDecode : Str → Str
  | [] => []
  | c :: rest =>
    if c = '%' then
      match rest with
      | a :: b :: rest2 => Char.ofNat (16 * hexVal a + hexVal b) :: pctDecode rest2
      | _ => c :: rest
    else c :: pctDecode rest

theorem hexVal_hexDigitChr (n : Nat) (h : n < 16) : hexVal (hexDigitChr n) = n := by
  interval_cases n <;> decide

theorem isUnreserved_ne_pct (c : Char) (h : isUnreserved c = true) : c ≠ '%' := by
  intro hc
  subst hc
  simp [isUnreserved] at h

theorem pctDecode_cons_ne (c : Char) (h : c ≠ '%') (s : Str) :
    pctDecode (c :: s) = c :: pctDecode s := by
  cases s with
  | nil => simp [pctDecode, h]
  | cons a s0 =>
    cases s0 with
    | nil => simp [pctDecode, h]
    | cons b s1 => simp [pctDecode, h]

theorem pctDecode_pct_cons (a b : Char) (t : Str) :
    pctDecode ('%' :: a :: b :: t) = Char.ofNat (16 * hexVal a + hexVal b) :: pctDecode t := by
  rfl

theorem pctDecode_escape (c : Char) (h : isUnreserved c = false) (hc : c.toNat < 256)
    (t : Str) : pctDecode (pctEncodeChar c ++ t) = c :: pctDecode t := by
  have hq : c.toNat / 16 < 16 := by omega
  have hr : c.toNat % 16 < 16 := Nat.mod_lt _ (by omega)
  have he : pctEncodeChar c ++ t
      = '%' :: hexDigitChr (c.toNat / 16) :: hexDigitChr (c.toNat % 16) :: t := by
    simp [pctEncodeChar, h]
  rw [he, pctDecode_pct_cons, hexVal_hexDigitChr _ hq, hexVal_hexDigitChr _ hr,
    Nat.div_add_mod, Char.ofNat_toNat]

theorem pctDecode_pctEncode_append (s t : Str) (h : ∀ c ∈ s, c.toNat < 256) :
    pctDecode (pctEncode s ++ t) = s ++ pctDecode t := by
  induction s with
  | nil => simp [pctEncode]
  | cons c cs ih =>
    have hc : c.toNat < 256 := h c (by simp)
    have hcs : ∀ d ∈ cs, d.toNat < 256 := fun d hd => h d (by simp [hd])
    have hflat : pctEncode (c :: cs) = pctEncodeChar c ++ pctEncode cs := by
      simp [pctEncode]
    rw [hflat, List.append_assoc]
    by_cases hu : isUnreserved c = true
    · have : pctEncodeChar c = [c] := by simp [pctEncodeChar, hu]
      rw [this]
      simp only [List.cons_append, List.nil_append]
      rw [pctDecode_cons_ne c (isUnreserved_ne_pct c hu), ih hcs]
    · rw [pctDecode_escape c (by simpa using hu) hc, ih hcs]
      rfl

/-! ### Parameter lists and the query-string form -/

/-- `Connection::ParamType` (source: `Connection.h`, line 81): an ordered
sequence of name/value pairs, duplicates allowed. -/
abbrev ParamType := List (Str × Str)

/-- One URL-encoded `name=value` unit.  Modelled from the spec. -/
def encodePair (p : Str × Str) : Str := pctEncode p.1 ++ '=' :: pctEncode p.2

/-- Join byte strings with a single-character separator. -/
def joinSep (sep : Char) : List Str → Str
  | [] => []
  | [x] => x
  | x :: y :: ys => x ++ sep :: joinSep sep (y :: ys)

/-- The URL-encoded query-string / form body.  Modelled from the spec:
percent-encode each pair, join with `&`, preserving input order. -/
def encodeQuery (ps : ParamType) : Str := joinSep '&' (ps.map encodePair)

/-- Recover one name/value pair from its URL-encoded form. -/
def decodePair (s : Str) : Str × Str :=
  (pctDecode (breakAt '=' s).1, pctDecode (((breakAt '=' s).2).drop 1))

/-- Recover an ordered parameter list from a query string. -/
def decodeQuery (s : Str) : ParamType :=
  if s = [] then [] else (splitChar '&' s).map decodePair

theorem mem_pctEncode_class (s : Str) (h : ∀ c ∈ s, c.toNat < 256) (d : Char)
    (hd : d ∈ pctEncode s) :
    isUnreserved d = true ∨ d = '%' ∨ ∃ n, n < 16 ∧ d = hexDigitChr n := by
  induction s with
  | nil => simp [pctEncode] at hd
  | cons c cs ih =>
    have hc : c.toNat < 256 := h c (by simp)
    have hcs : ∀ e ∈ cs, e.toNat < 256 := fun e he => h e (by simp [he])
    have hsplit : pctEncode (c :: cs) = pctEncodeChar c ++ pctEncode cs := by
      simp [pctEncode]
    rw [hsplit, List.mem_append] at hd
    rcases hd with hd | hd
    · by_cases hu : isUnreserved c = true
      · simp only [pctEncodeChar, hu, if_true, List.mem_singleton] at hd
        subst hd
        exact Or.inl hu
      · have hu' : isUnreserved c = false := by simpa using hu
        simp only [pctEncodeChar, hu', Bool.false_eq_true, if_false] at hd
        simp only [List.mem_cons, List.mem_singleton, List.not_mem_nil, or_false] at hd
        rcases hd with hd | hd | hd
        · exact Or.inr (Or.inl hd)
        · exact Or.inr (Or.inr ⟨c.toNat / 16, by omega, hd⟩)
        · exact Or.inr (Or.inr ⟨c.toNat % 16, Nat.mod_lt _ (by omega), hd⟩)
    · exact ih hcs hd

theorem amp_not_mem_pctEncode (s : Str) (h : ∀ c ∈ s, c.toNat < 256) :
    '&' ∉ pctEncode s := by
  intro hmem
  rcases mem_pctEncode_class s h '&' hmem with hcl | hcl | ⟨n, hn, hcl⟩
  · exact absurd hcl (by decide)
  · exact absurd hcl (by decide)
  · have hall : ∀ n, n < 16 → hexDigitChr n ≠ '&' := by decide
    exact hall n hn hcl.symm

theorem eqsign_not_mem_pctEncode (s : Str) (h : ∀ c ∈ s, c.toNat < 256) :
    '=' ∉ pctEncode s := by
  intro hmem
  rcases mem_pctEncode_class s h '=' hmem with hcl | hcl | ⟨n, hn, hcl⟩
  · exact absurd hcl (by decide)
  · exact absurd hcl (by decide)
  · have hall : ∀ n, n < 16 → hexDigitChr n ≠ '=' := by decide
    exact hall n hn hcl.symm

/-- A byte string whose characters all fit in one octet. -/
abbrev ByteStr (s : Str) : Prop := ∀ c ∈ s, c.toNat < 256

/-- Both components of a parameter are octet strings. -/
abbrev BytePair (p : Str × Str) : Prop := ByteStr p.1 ∧ ByteStr p.2

theorem pctDecode_pctEncode (s : Str) (h : ByteStr s) :
    pctDecode (pctEncode s) = s := by
  have := pctDecode_pctEncode_append s [] h
  simpa [pctDecode] using this

theorem decodePair_encodePair (p : Str × Str) (h : BytePair p) :
    decodePair (encodePair p) = p := by
  obtain ⟨n, v⟩ := p
  have hb : breakAt '=' (pctEncode n ++ '=' :: pctEncode v) = (pctEncode n, '=' :: pctEncode v) :=
    breakAt_append '=' _ _ (eqsign_not_mem_pctEncode n h.1)
  simp only [decodePair, encodePair, hb, List.drop_succ_cons, List.drop_zero]
  rw [pctDecode_pctEncode n h.1, pctDecode_pctEncode v h.2]

theorem amp_not_mem_encodePair (p : Str × Str) (h : BytePair p) :
    '&' ∉ encodePair p := by
  intro hmem
  simp only [encodePair, List.mem_append, List.mem_cons] at hmem
  rcases hmem with hmem | hmem | hmem
  · exact amp_not_mem_pctEncode p.1 h.1 hmem
  · exact absurd hmem (by decide)
  · exact amp_not_mem_pctEncode p.2 h.2 hmem

theorem splitChar_joinSep (sep : Char) (xs : List Str) (hne : xs ≠ [])
    (h : ∀ x ∈ xs, sep ∉ x) :
    splitChar sep (joinSep sep xs) = xs := by
  induction xs with
  | nil => exact absurd rfl hne
  | cons x xs0 ih =>
    cases xs0 with
    | nil =>
      rw [show joinSep sep [x] = x from rfl]
      exact splitChar_of_not_mem sep x (h x (by simp))
    | cons y ys =>
      rw [show joinSep sep (x :: y :: ys) = x ++ sep :: joinSep sep (y :: ys) from rfl]
      rw [splitChar_append sep _ _ (h x (by simp))]
      rw [ih (by simp) (fun z hz => h z (by simp [hz]))]

theorem encodePair_ne_nil (p : Str × Str) : encodePair p ≠ [] := by
  simp [encodePair]

theorem encodeQuery_ne_nil (p : Str × Str) (ps : ParamType) :
    encodeQuery (p :: ps) ≠ [] := by
  cases ps with
  | nil =>
    show joinSep '&' [encodePair p] ≠ []
    rw [show joinSep '&' [encodePair p] = encodePair p from rfl]
    exact encodePair_ne_nil p
  | cons q qs =>
    show encodePair p ++ '&' :: joinSep '&' ((q :: qs).map encodePair) ≠ []
    simp

/-- Decoding inverts query-string encoding: names, values and their order are
all recovered exactly. -/
theorem decodeQuery_encodeQuery (ps : ParamType) (h : ∀ p ∈ ps, BytePair p) :
    decodeQuery (encodeQuery ps) = ps := by
  cases ps with
  | nil => rfl
  | cons p ps0 =>
    rw [decodeQuery, if_neg (encodeQuery_ne_nil p ps0)]
    rw [encodeQuery, splitChar_joinSep '&' _ (by simp)
      (by
        intro x hx
        rw [List.mem_map] at hx
        obtain ⟨q, hq, rfl⟩ := hx
        exact amp_not_mem_encodePair q (h q hq))]
    rw [List.map_map]
    have : ∀ qs : ParamType, (∀ q ∈ qs, BytePair q) →
        qs.map (decodePair ∘ encodePair) = qs := by
      intro qs hqs
      induction qs with
      | nil => rfl
      | cons q qs0 ih =>
        simp only [List.map_cons, Function.comp_apply]
        rw [decodePair_encodePair q (hqs q (by simp)), ih (fun r hr => hqs r (by simp [hr]))]
    exact this (p :: ps0) h

/-! ### The file-upload name convention

Modelled from the spec and the doc comments in `Connection.h` (lines 77-81 and
114-120): a parameter name containing the pipe character denotes a file
upload, in the forms `name|mime-type` or `name|mime-type|filename`; for the
two-field form the filename coincides with the name.  A separator with no text
before or after it is a caller-usage error. -/

/-- The encoder's caller-usage error. -/
inductive EncErr where
  | malformedName
deriving DecidableEq

/-- What a parameter name denotes. -/
inductive FieldSpec where
  | plain (name : Str)
  | file (name mime filename : Str)
deriving DecidableEq

/-- Classify a parameter name by the pipe convention. -/
def parseParamName (n : Str) : Except EncErr FieldSpec :=
  match splitChar '|' n with
  | [a] => Except.ok (FieldSpec.plain a)
  | [a, b] =>
    if a = [] ∨ b = [] then Except.error EncErr.malformedName
    else Except.ok (FieldSpec.file a b a)
  | [a, b, c] =>
    if a = [] ∨ b = [] ∨ c = [] then Except.error EncErr.malformedName
    else Except.ok (FieldSpec.file a b c)
  | _ => Except.error EncErr.malformedName

/-- One part of a multipart body: the disposition field name, the optional
declared filename and MIME type, and the raw content. -/
structure Part where
  fieldName : Str
  filename : Option Str
  contentType : Option Str
  content : Str
deriving DecidableEq

/-- Turn one parameter into its multipart part. -/
def paramToPart (p : Str × Str) : Except EncErr Part :=
  match parseParamName p.1 with
  | Except.error e => Except.error e
  | Except.ok (FieldSpec.plain n) => Except.ok ⟨n, none, none, p.2⟩
  | Except.ok (FieldSpec.file n m f) => Except.ok ⟨n, some f, some m, p.2⟩

/-- Turn a parameter list into its multipart parts, in order; the first
malformed name aborts the encoding. -/
def paramsToParts : ParamType → Except EncErr (List Part)
  | [] => Except.ok []
  | p :: ps =>
    match paramToPart p, paramsToParts ps with
    | Except.error e, _ => Except.error e
    | Except.ok _, Except.error e => Except.error e
    | Except.ok part, Except.ok parts => Except.ok (part :: parts)

theorem parseParamName_plain (n : Str) (h : '|' ∉ n) :
    parseParamName n = Except.ok (FieldSpec.plain n) := by
  rw [parseParamName, splitChar_of_not_mem '|' n h]

theorem parseParamName_two (a b : Str) (ha : '|' ∉ a) (hb : '|' ∉ b)
    (hna : a ≠ []) (hnb : b ≠ []) :
    parseParamName (a ++ '|' :: b) = Except.ok (FieldSpec.file a b a) := by
  rw [parseParamName, splitChar_append '|' a b ha, splitChar_of_not_mem '|' b hb]
  simp [hna, hnb]

theorem parseParamName_three (a b c : Str) (ha : '|' ∉ a) (hb : '|' ∉ b) (hc : '|' ∉ c)
    (hna : a ≠ []) (hnb : b ≠ []) (hnc : c ≠ []) :
    parseParamName (a ++ '|' :: (b ++ '|' :: c)) = Except.ok (FieldSpec.file a b c) := by
  rw [parseParamName, splitChar_append '|' a _ ha, splitChar_append '|' b c hb,
    splitChar_of_not_mem '|' c hc]
  simp [hna, hnb, hnc]

/-- A name that starts with the separator is rejected. -/
theorem parseParamName_leading_sep (t : Str) :
    parseParamName ('|' :: t) = Except.error EncErr.malformedName := by
  have hsplit : splitChar '|' ('|' :: t) = [] :: splitChar '|' t := by
    simp [splitChar]
  rw [parseParamName, hsplit]
  rcases hlen : splitChar '|' t with _ | ⟨x, _ | ⟨y, _ | ⟨z, zs⟩⟩⟩
  · exact absurd hlen (splitChar_ne_nil '|' t)
  · simp
  · simp
  · rfl

/-- A name that ends with the separator is rejected. -/
theorem parseParamName_trailing_sep (t : Str) :
    parseParamName (t ++ ['|']) = Except.error EncErr.malformedName := by
  rw [parseParamName, splitChar_append_sep_end '|' t]
  rcases hlen : splitChar '|' t with _ | ⟨x, _ | ⟨y, _ | ⟨z, zs⟩⟩⟩
  · exact absurd hlen (splitChar_ne_nil '|' t)
  · simp
  · simp
  · rcases zs with _ | ⟨w, ws⟩
    · simp
    · rfl

/-! ### Multipart/form-data serialization

Modelled from the spec: each parameter becomes one part; a file part's
`Content-Disposition` uses the declared filename and its `Content-Type` the
declared MIME type; a non-file part has only a disposition with the field
name. -/

/-- `--` followed by the boundary token: the delimiter between parts. -/
def dashBoundary (b : Str) : Str := '-' :: '-' :: b

/-- `--` followed by CRLF: what follows the final boundary. -/
def closingSeq : Str := '-' :: '-' :: '\r' :: '\n' :: []

/-- The fixed text of a disposition header up to the quoted field name. -/
def cdToken : Str := ("Content-Disposition: form-data; name=".data)

/-- The fixed text introducing a declared filename. -/
def fnToken : Str := ("; filename=".data)

/-- The fixed text of a content-type header up to the MIME type. -/
def ctToken : Str := ("Content-Type: ".data)

/-- The `Content-Disposition` header line (without terminator). -/
def dispositionLine (p : Part) : Str :=
  cdToken ++ dq :: p.fieldName ++ dq ::
    (match p.filename with
     | none => []
     | some f => fnToken ++ dq :: f ++ [dq])

/-- The optional `Content-Type` header line (with terminator). -/
def contentTypeLine (p : Part) : Str :=
  match p.contentType with
  | none => []
  | some m => ctToken ++ m ++ crlf

/-- One serialized part, as it appears between two boundary delimiters. -/
def serializePart (p : Part) : Str :=
  crlf ++ dispositionLine p ++ crlf ++ contentTypeLine p ++ crlf ++ p.content ++ crlf

/-- The whole multipart body for a list of parts. -/
def multipartBody (b : Str) (parts : List Part) : Str :=
  (parts.map (fun p => dashBoundary b ++ serializePart p)).flatten
    ++ dashBoundary b ++ closingSeq

/-! ### Multipart parsing (the decoder used to state recoverability) -/

/-- Read a quoted token: the input must continue with the token, a double
quote, and the remainder. -/
def parseQuoted (s : Str) : Option (Str × Str) :=
  match breakAt dq s with
  | (n, r) =>
    match r with
    | [] => none
    | _ :: r2 => some (n, r2)

/-- Remove a trailing CRLF. -/
def chopCrlf (s : Str) : Option Str :=
  if 2 ≤ s.length ∧ s.drop (s.length - 2) = crlf then some (s.take (s.length - 2))
  else none

/-- Leading text of a serialized part up to the quoted field name. -/
def dispoPre : Str := crlf ++ cdToken ++ [dq]

/-- Leading text of a declared filename inside a disposition line. -/
def fnPre : Str := fnToken ++ [dq]

/-- Leading text of a content-type line, with the preceding terminator. -/
def ctPre : Str := crlf ++ ctToken

/-- Parse the filename, content type and content of a serialized file part,
after the quoted filename opener has been consumed. -/
def parseFileTail (name s3 : Str) : Option Part :=
  (parseQuoted s3).bind fun fs4 =>
    (dropLit ctPre fs4.2).bind fun s5 =>
      (dropLit (crlf ++ crlf) (breakAt '\r' s5).2).bind fun s7 =>
        (chopCrlf s7).map fun content =>
          ⟨name, some fs4.1, some (breakAt '\r' s5).1, content⟩

/-- Parse the content of a serialized non-file part, after the disposition
line has been consumed. -/
def parsePlainTail (name s2 : Str) : Option Part :=
  (dropLit (crlf ++ crlf) s2).bind fun s3 =>
    (chopCrlf s3).map fun content => ⟨name, none, none, content⟩

/-- Parse one serialized part back into its fields. -/
def parsePart (s : Str) : Option Part :=
  (dropLit dispoPre s).bind fun s1 =>
    (parseQuoted s1).bind fun ns2 =>
      match dropLit fnPre ns2.2 with
      | some s3 => parseFileTail ns2.1 s3
      | none => parsePlainTail ns2.1 ns2.2

/-- Parse a whole multipart body: an empty leading segment, the parts, and the
closing `--` line. -/
def decodeMultipart (b : Str) (body : Str) : Option (List Part) :=
  match splitSeq (dashBoundary b) body with
  | [] => none
  | first :: rest =>
    if first = [] ∧ rest.getLast? = some closingSeq then rest.dropLast.mapM parsePart
    else none

theorem chopCrlf_append (c : Str) : chopCrlf (c ++ crlf) = some c := by
  have h2 : (c ++ crlf).length = c.length + 2 := by simp [crlf]
  have hcond : 2 ≤ (c ++ crlf).length ∧ (c ++ crlf).drop ((c ++ crlf).length - 2) = crlf := by
    refine ⟨by omega, ?_⟩
    rw [h2, Nat.add_sub_cancel]
    exact List.drop_left c crlf
  unfold chopCrlf
  rw [if_pos hcond, h2, Nat.add_sub_cancel, List.take_left]

theorem parseQuoted_append (n rest : Str) (h : dq ∉ n) :
    parseQuoted (n ++ dq :: rest) = some (n, rest) := by
  simp only [parseQuoted, breakAt_append dq n rest h]

theorem serializePart_plain_shape (n v : Str) :
    serializePart ⟨n, none, none, v⟩
      = dispoPre ++ (n ++ dq :: (crlf ++ (crlf ++ (v ++ crlf)))) := by
  simp [serializePart, dispositionLine, contentTypeLine, dispoPre, List.append_assoc]

theorem serializePart_file_shape (n m f v : Str) :
    serializePart ⟨n, some f, some m, v⟩
      = dispoPre ++ (n ++ dq :: (fnPre ++ (f ++ dq ::
          (ctPre ++ (m ++ (crlf ++ crlf ++ (v ++ crlf))))))) := by
  simp [serializePart, dispositionLine, contentTypeLine, dispoPre, fnPre, ctPre,
    List.append_assoc]

theorem parsePart_plain (n v : Str) (hn : dq ∉ n) :
    parsePart (serializePart ⟨n, none, none, v⟩) = some ⟨n, none, none, v⟩ := by
  rw [serializePart_plain_shape]
  simp only [parsePart, dropLit_append, Option.some_bind, parseQuoted_append n _ hn]
  have hfn : dropLit fnPre (crlf ++ (crlf ++ (v ++ crlf))) = none := rfl
  rw [hfn]
  simp only [parsePlainTail]
  rw [show crlf ++ (crlf ++ (v ++ crlf)) = (crlf ++ crlf) ++ (v ++ crlf) by
    simp [List.append_assoc]]
  rw [dropLit_append]
  simp only [Option.some_bind, chopCrlf_append, Option.map_some']

theorem parsePart_file (n m f v : Str) (hn : dq ∉ n) (hf : dq ∉ f) (hm : '\r' ∉ m) :
    parsePart (serializePart ⟨n, some f, some m, v⟩) = some ⟨n, some f, some m, v⟩ := by
  rw [serializePart_file_shape]
  simp only [parsePart, dropLit_append, Option.some_bind, parseQuoted_append n _ hn]
  simp only [parseFileTail, parseQuoted_append f _ hf, Option.some_bind,
    dropLit_append ctPre]
  have hbreak : breakAt '\r' (m ++ (crlf ++ crlf ++ (v ++ crlf)))
      = (m, crlf ++ crlf ++ (v ++ crlf)) := by
    have := breakAt_append '\r' m ('\n' :: (crlf ++ (v ++ crlf))) hm
    simpa [crlf, List.append_assoc] using this
  rw [hbreak]
  simp only
  rw [show crlf ++ crlf ++ (v ++ crlf) = (crlf ++ crlf) ++ (v ++ crlf) by
    simp [List.append_assoc]]
  rw [dropLit_append]
  simp only [Option.some_bind, chopCrlf_append, Option.map_some']

/-- Structural well-formedness needed for exact recovery of a part: no quote
inside quoted tokens, no CR inside the MIME type, and the filename/MIME fields
are either both absent (plain part) or both present (file part) — the only two
shapes the encoder produces. -/
abbrev WellFormedPart (p : Part) : Prop :=
  dq ∉ p.fieldName ∧
    match p.filename, p.contentType with
    | none, none => True
    | some f, some m => dq ∉ f ∧ '\r' ∉ m
    | _, _ => False

theorem parsePart_serializePart (p : Part) (h : WellFormedPart p) :
    parsePart (serializePart p) = some p := by
  obtain ⟨hn, hrest⟩ := h
  rcases p with ⟨n, fn, ct, v⟩
  rcases fn with _ | f <;> rcases ct with _ | m
  · exact parsePart_plain n v hn
  · exact hrest.elim
  · exact hrest.elim
  · exact parsePart_file n m f v hn hrest.1 hrest.2

theorem flatten_shift (d : Str) (xs : List Str) (t : Str) :
    (xs.map (fun s => d ++ s)).flatten ++ (d ++ t)
      = d ++ ((xs.map (fun s => s ++ d)).flatten ++ t) := by
  induction xs with
  | nil => simp
  | cons x xs ih =>
    simp only [List.map_cons, List.flatten_cons, List.append_assoc]
    rw [ih]

theorem multipartBody_shape (b : Str) (parts : List Part) :
    multipartBody b parts
      = dashBoundary b ++
          (((parts.map serializePart).map (fun s => s ++ dashBoundary b)).flatten
            ++ closingSeq) := by
  unfold multipartBody
  rw [show parts.map (fun p => dashBoundary b ++ serializePart p)
      = (parts.map serializePart).map (fun s => dashBoundary b ++ s) by
    rw [List.map_map]
    rfl]
  rw [List.append_assoc]
  exact flatten_shift (dashBoundary b) (parts.map serializePart) closingSeq

theorem splitSeq_delim_head (d s : Str) (hd : d ≠ []) :
    splitSeq d (d ++ s) = [] :: splitSeq d s := by
  have := splitSeq_prepend d [] s hd (fun i hi => absurd hi (by simp))
  simpa using this

theorem mapM_parsePart_map (parts : List Part) (hwf : ∀ p ∈ parts, WellFormedPart p) :
    (parts.map serializePart).mapM parsePart = some parts := by
  induction parts with
  | nil => rfl
  | cons p ps ih =>
    rw [List.map_cons, List.mapM_cons]
    rw [parsePart_serializePart p (hwf p (by simp)), ih (fun q hq => hwf q (by simp [hq]))]
    rfl

/-- Decoding inverts multipart encoding: splitting the body at the boundary
delimiter and parsing each part recovers the part list, in order. -/
theorem decodeMultipart_multipartBody (b : Str) (parts : List Part)
    (hclean : ∀ p ∈ parts, cleanFor (dashBoundary b) (serializePart p))
    (htail : noOccur (dashBoundary b) closingSeq)
    (hwf : ∀ p ∈ parts, WellFormedPart p) :
    decodeMultipart b (multipartBody b parts) = some parts := by
  have hd : dashBoundary b ≠ [] := by simp [dashBoundary]
  rw [multipartBody_shape]
  unfold decodeMultipart
  rw [splitSeq_delim_head _ _ hd]
  rw [splitSeq_chain _ _ _ hd
    (by
      intro p hp
      rw [List.mem_map] at hp
      obtain ⟨q, hq, rfl⟩ := hp
      exact hclean q hq)
    htail]
  simp only [List.getLast?_concat, List.dropLast_concat, and_true, if_pos rfl]
  exact mapM_parsePart_map parts hwf

/-! ### The full upload encoder -/

/-- Does any parameter name contain the file-upload separator? -/
def hasFileParam (ps : ParamType) : Bool :=
  ps.any (fun p => p.1.any (fun c => c = '|'))

/-- The result of `RequestEncoder.encode`: a content type and a body. -/
structure Encoded where
  contentType : Str
  body : Str
deriving DecidableEq

/-- Modelled from the spec: `RequestEncoder.encode` for a POST body.  With no
file-upload separator in any name, the body is the URL-encoded form; with at
least one, the whole body switches to multipart/form-data with boundary `b`. -/
def encodeUpload (b : Str) (ps : ParamType) : Except EncErr Encoded :=
  if hasFileParam ps then
    match paramsToParts ps with
    | Except.error e => Except.error e
    | Except.ok parts =>
      Except.ok ⟨("multipart/form-data; boundary=".data) ++ b, multipartBody b parts⟩
  else Except.ok ⟨("application/x-www-form-urlencoded".data), encodeQuery ps⟩

theorem paramToPart_error_of_malformed (n v : Str)
    (hmal : (∃ t, n = '|' :: t) ∨ (∃ t, n = t ++ ['|'])) :
    paramToPart (n, v) = Except.error EncErr.malformedName := by
  rcases hmal with ⟨t, rfl⟩ | ⟨t, rfl⟩
  · simp [paramToPart, parseParamName_leading_sep]
  · simp [paramToPart, parseParamName_trailing_sep]

theorem paramsToParts_error (ps : ParamType) (n v : Str) (hmem : (n, v) ∈ ps)
    (herr : paramToPart (n, v) = Except.error EncErr.malformedName) :
    paramsToParts ps = Except.error EncErr.malformedName := by
  induction ps with
  | nil => simp at hmem
  | cons p ps0 ih =>
    rcases List.mem_cons.mp hmem with hp | hp
    · have herr2 : paramToPart p = Except.error EncErr.malformedName := hp ▸ herr
      simp [paramsToParts, herr2]
    · cases hfirst : paramToPart p with
      | error e =>
        cases e
        simp [paramsToParts, hfirst]
      | ok part =>
        rw [paramsToParts, hfirst, ih hp]

theorem hasFileParam_of_mem (ps : ParamType) (n v : Str) (hmem : (n, v) ∈ ps)
    (hsep : '|' ∈ n) : hasFileParam ps = true := by
  rw [hasFileParam, List.any_eq_true]
  refine ⟨(n, v), hmem, ?_⟩
  rw [List.any_eq_true]
  exact ⟨'|', hsep, by simp⟩

/-- The disposition field name a parameter name denotes: its first
pipe-separated segment. -/
def baseName (n : Str) : Str := (splitChar '|' n).headI

theorem paramToPart_fields (n v : Str) (part : Part)
    (h : paramToPart (n, v) = Except.ok part) :
    part.content = v ∧ part.fieldName = baseName n := by
  rcases hsegs : splitChar '|' n with _ | ⟨a, rest⟩
  · exact absurd hsegs (splitChar_ne_nil _ _)
  rcases rest with _ | ⟨b2, rest2⟩
  · simp only [paramToPart, parseParamName, hsegs, Except.ok.injEq] at h
    rw [← h]
    simp [baseName, hsegs]
  rcases rest2 with _ | ⟨c3, rest3⟩
  · by_cases hempty : a = [] ∨ b2 = []
    · simp [paramToPart, parseParamName, hsegs, hempty] at h
    · simp only [paramToPart, parseParamName, hsegs, if_neg hempty, Except.ok.injEq] at h
      rw [← h]
      simp [baseName, hsegs]
  rcases rest3 with _ | ⟨d4, rest4⟩
  · by_cases hempty : a = [] ∨ b2 = [] ∨ c3 = []
    · simp [paramToPart, parseParamName, hsegs, hempty] at h
    · simp only [paramToPart, parseParamName, hsegs, if_neg hempty, Except.ok.injEq] at h
      rw [← h]
      simp [baseName, hsegs]
  · simp [paramToPart, parseParamName, hsegs] at h

theorem paramsToParts_append (xs ys : ParamType) (parts : List Part)
    (h : paramsToParts (xs ++ ys) = Except.ok parts) :
    ∃ ps1 ps2, parts = ps1 ++ ps2 ∧ paramsToParts xs = Except.ok ps1
      ∧ paramsToParts ys = Except.ok ps2 := by
  induction xs generalizing parts with
  | nil => exact ⟨[], parts, by simp, rfl, h⟩
  | cons p xs0 ih =>
    rw [List.cons_append, paramsToParts] at h
    cases hfirst : paramToPart p with
    | error e =>
      rw [hfirst] at h
      simp at h
    | ok part =>
      rw [hfirst] at h
      cases hrest : paramsToParts (xs0 ++ ys) with
      | error e =>
        rw [hrest] at h
        simp at h
      | ok parts0 =>
        rw [hrest] at h
        simp only [Except.ok.injEq] at h
        subst h
        obtain ⟨ps1, ps2, hparts, hxs, hys⟩ := ih parts0 hrest
        refine ⟨part :: ps1, ps2, by simp [hparts], ?_, hys⟩
        rw [paramsToParts, hfirst, hxs]

theorem paramsToParts_fields (ps : ParamType) (parts : List Part)
    (h : paramsToParts ps = Except.ok parts) :
    parts.map Part.content = ps.map Prod.snd
      ∧ parts.map Part.fieldName = ps.map (fun p => baseName p.1) := by
  induction ps generalizing parts with
  | nil =>
    simp only [paramsToParts, Except.ok.injEq] at h
    subst h
    exact ⟨rfl, rfl⟩
  | cons p ps0 ih =>
    cases hfirst : paramToPart p with
    | error e => rw [paramsToParts, hfirst] at h; exact absurd h (by simp)
    | ok part =>
      cases hrest : paramsToParts ps0 with
      | error e => rw [paramsToParts, hfirst, hrest] at h; exact absurd h (by simp)
      | ok parts0 =>
        rw [paramsToParts, hfirst, hrest] at h
        simp only [Except.ok.injEq] at h
        subst h
        obtain ⟨hc, hf⟩ := ih parts0 hrest
        obtain ⟨hc1, hf1⟩ := paramToPart_fields p.1 p.2 part (by
          rw [← hfirst])
        simp only [List.map_cons, hc, hf, hc1, hf1]
        exact ⟨trivial, trivial⟩

/-! ### Digit strings -/

/-- Interpret digit characters most-significant-first. -/
def readNum (base : Nat) (val : Char → Nat) (s : Str) : Nat :=
  s.foldl (fun a c => base * a + val c) 0

/-- Decimal digit character. -/
def digitChr (d : Nat) : Char := Char.ofNat (48 + d)

/-- Value of a decimal digit character. -/
def digitVal (c : Char) : Nat := c.toNat - 48

/-- Decimal digit recognizer. -/
def isDigit (c : Char) : Bool := 48 ≤ c.toNat && c.toNat ≤ 57

/-- Little-endian digits of `n` in the given base, with explicit fuel so the
computation is structural. -/
def digitsRev (base : Nat) : Nat → Nat → List Nat
  | 0, _ => []
  | _ + 1, 0 => []
  | fuel + 1, n + 1 => ((n + 1) % base) :: digitsRev base fuel ((n + 1) / base)

/-- Little-endian digits of `n` in the given base. -/
def natDigits (base n : Nat) : List Nat := digitsRev base n n

theorem digitsRev_ofDigits (base : Nat) (hb : 2 ≤ base) (fuel : Nat) :
    ∀ n, n ≤ fuel → Nat.ofDigits base (digitsRev base fuel n) = n := by
  induction fuel with
  | zero =>
    intro n hn
    interval_cases n
    simp [digitsRev]
  | succ f ih =>
    intro n hn
    cases n with
    | zero => simp [digitsRev]
    | succ k =>
      rw [digitsRev, Nat.ofDigits_cons]
      have hdiv : (k + 1) / base ≤ f := by
        have := Nat.div_lt_self (Nat.succ_pos k) hb
        simp only [Nat.succ_eq_add_one] at this
        omega
      rw [ih _ hdiv]
      exact Nat.mod_add_div _ _

theorem natDigits_ofDigits (base : Nat) (hb : 2 ≤ base) (n : Nat) :
    Nat.ofDigits base (natDigits base n) = n :=
  digitsRev_ofDigits base hb n n (Nat.le_refl n)

theorem digitsRev_lt_base (base : Nat) (hb : 2 ≤ base) (fuel : Nat) :
    ∀ n d, d ∈ digitsRev base fuel n → d < base := by
  induction fuel with
  | zero =>
    intro n d hd
    simp [digitsRev] at hd
  | succ f ih =>
    intro n d hd
    cases n with
    | zero => simp [digitsRev] at hd
    | succ k =>
      rw [digitsRev] at hd
      rcases List.mem_cons.mp hd with hd | hd
      · rw [hd]
        exact Nat.mod_lt _ (by omega)
      · exact ih _ d hd

theorem natDigits_lt_base (base : Nat) (hb : 2 ≤ base) (n d : Nat)
    (hd : d ∈ natDigits base n) : d < base :=
  digitsRev_lt_base base hb n n d hd

theorem natDigits_ne_nil (base n : Nat) (hn : n ≠ 0) : natDigits base n ≠ [] := by
  cases n with
  | zero => exact absurd rfl hn
  | succ k => simp [natDigits, digitsRev]

/-- Decimal rendering of a natural number. -/
def natToStr (n : Nat) : Str :=
  if n = 0 then ['0'] else (natDigits 10 n).reverse.map digitChr

/-- Hexadecimal rendering of a natural number. -/
def toHexStr (n : Nat) : Str :=
  if n = 0 then ['0'] else (natDigits 16 n).reverse.map hexDigitChr

/-- Parse an all-decimal-digit string. -/
def parseNat (s : Str) : Option Nat :=
  if s ≠ [] ∧ s.all isDigit then some (readNum 10 digitVal s) else none

theorem readNum_eval (base : Nat) (val : Char → Nat) (chr : Nat → Char)
    (hrt : ∀ d, d < base → val (chr d) = d) (ds : List Nat)
    (hds : ∀ d ∈ ds, d < base) (acc : Nat) :
    (ds.reverse.map chr).foldl (fun a c => base * a + val c) acc
      = acc * base ^ ds.length + Nat.ofDigits base ds := by
  induction ds generalizing acc with
  | nil => simp [Nat.ofDigits]
  | cons d ds ih =>
    have hd : d < base := hds d (by simp)
    have hds0 : ∀ e ∈ ds, e < base := fun e he => hds e (by simp [he])
    simp only [List.reverse_cons, List.map_append, List.map_cons, List.map_nil,
      List.foldl_append, List.foldl_cons, List.foldl_nil]
    rw [ih hds0 acc, hrt d hd, Nat.ofDigits_cons]
    simp only [List.length_cons]
    ring

theorem readNum_digits (base : Nat) (val : Char → Nat) (chr : Nat → Char)
    (hb : 2 ≤ base) (hrt : ∀ d, d < base → val (chr d) = d) (n : Nat) :
    readNum base val ((natDigits base n).reverse.map chr) = n := by
  have h := readNum_eval base val chr hrt (natDigits base n)
    (fun d hd => natDigits_lt_base base hb n d hd) 0
  rw [readNum, h, natDigits_ofDigits base hb]
  simp

theorem digitVal_digitChr (d : Nat) (h : d < 10) : digitVal (digitChr d) = d := by
  interval_cases d <;> decide

theorem isDigit_digitChr (d : Nat) (h : d < 10) : isDigit (digitChr d) = true := by
  interval_cases d <;> decide

theorem natToStr_spec (n : Nat) :
    natToStr n ≠ [] ∧ (natToStr n).all isDigit = true := by
  by_cases h0 : n = 0
  · subst h0
    exact ⟨by decide, by decide⟩
  · rw [natToStr, if_neg h0]
    constructor
    · simp [natDigits_ne_nil 10 n h0]
    · rw [List.all_eq_true]
      intro c hc
      rw [List.mem_map] at hc
      obtain ⟨d, hd, rfl⟩ := hc
      rw [List.mem_reverse] at hd
      exact isDigit_digitChr d (natDigits_lt_base 10 (by omega) n d hd)

theorem parseNat_natToStr (n : Nat) : parseNat (natToStr n) = some n := by
  obtain ⟨hne, hall⟩ := natToStr_spec n
  rw [parseNat, if_pos ⟨hne, hall⟩]
  by_cases h0 : n = 0
  · subst h0
    decide
  · rw [natToStr, if_neg h0]
    rw [readNum_digits 10 digitVal digitChr (by omega) digitVal_digitChr n]

theorem isHexDig_hexDigitChr (d : Nat) (h : d < 16) : isHexDig (hexDigitChr d) = true := by
  interval_cases d <;> decide

theorem toHexStr_spec (n : Nat) :
    toHexStr n ≠ [] ∧ (toHexStr n).all isHexDig = true ∧ '\r' ∉ toHexStr n := by
  by_cases h0 : n = 0
  · subst h0
    exact ⟨by decide, by decide, by decide⟩
  · rw [toHexStr, if_neg h0]
    refine ⟨by simp [natDigits_ne_nil 16 n h0], ?_, ?_⟩
    · rw [List.all_eq_true]
      intro c hc
      rw [List.mem_map] at hc
      obtain ⟨d, hd, rfl⟩ := hc
      rw [List.mem_reverse] at hd
      exact isHexDig_hexDigitChr d (natDigits_lt_base 16 (by omega) n d hd)
    · intro hc
      rw [List.mem_map] at hc
      obtain ⟨d, hd, hdc⟩ := hc
      rw [List.mem_reverse] at hd
      have hlt : d < 16 := natDigits_lt_base 16 (by omega) n d hd
      have : ∀ e, e < 16 → hexDigitChr e ≠ '\r' := by decide
      exact this d hlt hdc

theorem readNum_toHexStr (n : Nat) : readNum 16 hexVal (toHexStr n) = n := by
  by_cases h0 : n = 0
  · subst h0
    decide
  · rw [toHexStr, if_neg h0]
    rw [readNum_digits 16 hexVal hexDigitChr (by omega) hexVal_hexDigitChr n]

theorem isDigit_not_special (c : Char) (h : isDigit c = true) :
    c ≠ ' ' ∧ c ≠ '\r' ∧ c ≠ ':' := by
  rw [isDigit, Bool.and_eq_true, decide_eq_true_eq, decide_eq_true_eq] at h
  refine ⟨?_, ?_, ?_⟩ <;> intro hc <;> subst hc <;> revert h <;> decide

/-! ### ResponseReader: lines and headers

Modelled from the spec: `ResponseReader` is declared in `Connection.h`
(`receiveResponse`, line 165) but its body is not among the supplied sources.
State machine per the spec: status line, then header lines split at the first
colon with surrounding whitespace trimmed, until an empty line, then the
body. -/

/-- Read one CRLF-terminated line; `none` when no full line is available or a
CR is not followed by LF. -/
def readLine : Str → Option (Str × Str)
  | [] => none
  | [_] => none
  | c :: d :: rest =>
    if c = '\r' then
      if d = '\n' then some ([], rest) else none
    else
      match readLine (d :: rest) with
      | none => none
      | some (l, r) => some (c :: l, r)

theorem readLine_append (l rest : Str) (h : '\r' ∉ l) :
    readLine (l ++ '\r' :: '\n' :: rest) = some (l, rest) := by
  induction l with
  | nil => rfl
  | cons c cs ih =>
    have hc : c ≠ '\r' := fun hh => h (by simp [hh])
    have hcs : '\r' ∉ cs := fun hh => h (List.mem_cons_of_mem _ hh)
    cases cs with
    | nil =>
      have hshape : (([c] : Str) ++ '\r' :: '\n' :: rest) = c :: '\r' :: '\n' :: rest := by
        simp
      rw [hshape, readLine, if_neg hc]
      rw [show readLine ('\r' :: '\n' :: rest) = some ([], rest) from rfl]
    | cons c2 cs2 =>
      have hshape : ((c :: c2 :: cs2 : Str) ++ '\r' :: '\n' :: rest)
          = c :: c2 :: (cs2 ++ '\r' :: '\n' :: rest) := by simp
      rw [hshape, readLine, if_neg hc]
      have ih2 := ih hcs
      have hshape2 : ((c2 :: cs2 : Str) ++ '\r' :: '\n' :: rest)
          = c2 :: (cs2 ++ '\r' :: '\n' :: rest) := by simp
      rw [hshape2] at ih2
      rw [ih2]

/-- Trim leading and trailing spaces. -/
def trimSpaces (s : Str) : Str :=
  ((s.dropWhile (fun c => c = ' ')).reverse.dropWhile (fun c => c = ' ')).reverse

/-- A byte string with no space at either end. -/
abbrev NoEdgeSpace (s : Str) : Prop := s.head? ≠ some ' ' ∧ s.getLast? ≠ some ' '

theorem dropWhile_space_of_clean (s : Str) (h : s.head? ≠ some ' ') :
    s.dropWhile (fun c => c = ' ') = s := by
  cases s with
  | nil => rfl
  | cons c cs =>
    have hc : ¬ (c = ' ') := fun hh => h (by simp [hh])
    simp [List.dropWhile_cons, hc]

theorem trimSpaces_of_clean (s : Str) (h : NoEdgeSpace s) : trimSpaces s = s := by
  rw [trimSpaces, dropWhile_space_of_clean s h.1, dropWhile_space_of_clean, List.reverse_reverse]
  rw [List.head?_reverse]
  exact h.2

theorem trimSpaces_space_cons (s : Str) (h : NoEdgeSpace s) :
    trimSpaces (' ' :: s) = s := by
  have hstep : (' ' :: s).dropWhile (fun c => c = ' ') = s.dropWhile (fun c => c = ' ') := by
    simp [List.dropWhile_cons]
  rw [trimSpaces, hstep, dropWhile_space_of_clean s h.1, dropWhile_space_of_clean,
    List.reverse_reverse]
  rw [List.head?_reverse]
  exact h.2

/-- Split a header line at the first colon and trim both sides. -/
def parseHeaderLine (l : Str) : Option (Str × Str) :=
  match breakAt ':' l with
  | (n, r) =>
    match r with
    | [] => none
    | _ :: v => some (trimSpaces n, trimSpaces v)

/-- One serialized header line (with terminator). -/
def serializeHeader (h : Str × Str) : Str := h.1 ++ ':' :: ' ' :: h.2 ++ crlf

/-- Well-formedness of a header pair for exact recovery. -/
abbrev CleanHeader (h : Str × Str) : Prop :=
  '\r' ∉ h.1 ∧ '\r' ∉ h.2 ∧ ':' ∉ h.1 ∧ h.1 ≠ [] ∧ NoEdgeSpace h.1 ∧ NoEdgeSpace h.2

theorem parseHeaderLine_serialize (n v : Str) (h : CleanHeader (n, v)) :
    parseHeaderLine (n ++ ':' :: ' ' :: v) = some (n, v) := by
  obtain ⟨-, -, hcolon, -, hns, hvs⟩ := h
  simp only [parseHeaderLine, breakAt_append ':' n (' ' :: v) hcolon]
  rw [trimSpaces_of_clean n hns, trimSpaces_space_cons v hvs]

/-- Parse header lines (fuel-bounded) until a blank line; returns the headers
and the remainder after the blank line. -/
def parseHeadersAux : Nat → Str → Option (List (Str × Str) × Str)
  | 0, _ => none
  | fuel + 1, s =>
    (readLine s).bind fun lr =>
      if lr.1 = [] then some ([], lr.2)
      else
        (parseHeaderLine lr.1).bind fun hd =>
          (parseHeadersAux fuel lr.2).map fun hsr => (hd :: hsr.1, hsr.2)

/-- Parse the header block of a response. -/
def parseHeaders (s : Str) : Option (List (Str × Str) × Str) :=
  parseHeadersAux s.length s

theorem parseHeadersAux_round (hs : List (Str × Str)) (rest : Str) (fuel : Nat)
    (hclean : ∀ h ∈ hs, CleanHeader h) (hfuel : hs.length < fuel) :
    parseHeadersAux fuel ((hs.map serializeHeader).flatten ++ '\r' :: '\n' :: rest)
      = some (hs, rest) := by
  induction hs generalizing fuel with
  | nil =>
    cases fuel with
    | zero => omega
    | succ f =>
      simp only [List.map_nil, List.flatten_nil, List.nil_append, parseHeadersAux]
      rw [show readLine ('\r' :: '\n' :: rest) = some ([], rest) from rfl]
      rfl
  | cons h hs0 ih =>
    cases fuel with
    | zero => omega
    | succ f =>
      obtain ⟨hr1, hr2, hcolon, hne, hns, hvs⟩ := hclean h (by simp)
      have hline : '\r' ∉ h.1 ++ ':' :: ' ' :: h.2 := by
        intro hmem
        rw [List.mem_append] at hmem
        rcases hmem with hmem | hmem
        · exact hr1 hmem
        · rcases hmem with _ | ⟨_, hmem⟩
          rcases hmem with _ | ⟨_, hmem⟩
          exact hr2 hmem
      have hshape : (((h :: hs0).map serializeHeader).flatten ++ '\r' :: '\n' :: rest)
          = (h.1 ++ ':' :: ' ' :: h.2)
              ++ '\r' :: '\n' :: ((hs0.map serializeHeader).flatten ++ '\r' :: '\n' :: rest) := by
        simp [serializeHeader, crlf, List.append_assoc]
      rw [hshape, parseHeadersAux]
      rw [readLine_append _ _ hline]
      rw [Option.some_bind]
      rw [if_neg (show ¬(h.1 ++ ':' :: ' ' :: h.2 = []) by simp)]
      rw [parseHeaderLine_serialize h.1 h.2 (hclean h (by simp))]
      rw [Option.some_bind]
      have hfuel0 : hs0.length < f := by
        simp only [List.length_cons] at hfuel
        omega
      rw [ih f (fun g hg => hclean g (by simp [hg])) hfuel0]
      rfl

theorem flatten_serializeHeader_length (hs : List (Str × Str)) :
    hs.length ≤ ((hs.map serializeHeader).flatten).length := by
  induction hs with
  | nil => simp
  | cons h hs0 ih =>
    simp only [List.map_cons, List.flatten_cons, List.length_append, List.length_cons]
    have : 1 ≤ (serializeHeader h).length := by
      simp only [serializeHeader, List.length_append, List.length_cons]
      omega
    omega

theorem parseHeaders_round (hs : List (Str × Str)) (rest : Str)
    (hclean : ∀ h ∈ hs, CleanHeader h) :
    parseHeaders ((hs.map serializeHeader).flatten ++ '\r' :: '\n' :: rest)
      = some (hs, rest) := by
  rw [parseHeaders]
  apply parseHeadersAux_round hs rest _ hclean
  have := flatten_serializeHeader_length hs
  simp only [List.length_append, List.length_cons]
  omega

/-! ### Chunked transfer decoding

Modelled from the spec: decode chunk-size-prefixed segments until the
terminating zero-length chunk; chunk sizes are hexadecimal and each chunk and
its size line are CRLF-terminated. -/

/-- Decode chunked segments (fuel-bounded); returns the concatenated body and
the bytes following the terminating empty chunk. -/
def readChunksAux : Nat → Str → Option (Str × Str)
  | 0, _ => none
  | fuel + 1, s =>
    (readLine s).bind fun lr =>
      if lr.1 ≠ [] ∧ lr.1.all isHexDig then
        if readNum 16 hexVal lr.1 = 0 then
          (dropLit crlf lr.2).map fun r2 => (([] : Str), r2)
        else
          if readNum 16 hexVal lr.1 ≤ lr.2.length then
            (dropLit crlf (lr.2.drop (readNum 16 hexVal lr.1))).bind fun r3 =>
              (readChunksAux fuel r3).map fun br =>
                (lr.2.take (readNum 16 hexVal lr.1) ++ br.1, br.2)
          else none
      else none

/-- Decode a chunked body. -/
def readChunks (s : Str) : Option (Str × Str) := readChunksAux s.length s

/-- One encoded chunk: hexadecimal size line, then the data, each
CRLF-terminated. -/
def encodeChunk (c : Str) : Str := toHexStr c.length ++ '\r' :: '\n' :: (c ++ crlf)

/-- A whole chunked body: the encoded chunks and the zero-size terminator. -/
def encodeChunked (cs : List Str) : Str :=
  (cs.map encodeChunk).flatten ++ '0' :: '\r' :: '\n' :: '\r' :: '\n' :: []

theorem readChunksAux_round (cs : List Str) (rest : Str) (fuel : Nat)
    (h : ∀ c ∈ cs, c ≠ []) (hfuel : cs.length < fuel) :
    readChunksAux fuel (encodeChunked cs ++ rest) = some (cs.flatten, rest) := by
  induction cs generalizing fuel with
  | nil =>
    cases fuel with
    | zero => omega
    | succ f =>
      have hshape : encodeChunked [] ++ rest = '0' :: '\r' :: '\n' :: (crlf ++ rest) := by
        simp [encodeChunked, crlf]
      have hrl : readLine ('0' :: '\r' :: '\n' :: (crlf ++ rest)) = some (['0'], crlf ++ rest) :=
        readLine_append ['0'] (crlf ++ rest) (by decide)
      rw [hshape]
      simp [readChunksAux, hrl, dropLit_append,
        (show isHexDig '0' = true by decide), (show readNum 16 hexVal ['0'] = 0 by decide)]
  | cons c cs0 ih =>
    cases fuel with
    | zero => omega
    | succ f =>
      have hc : c ≠ [] := h c (by simp)
      have hc0 : ¬ c.length = 0 := by simp [hc]
      obtain ⟨hhne, hhall, hhcr⟩ := toHexStr_spec c.length
      have hshape : encodeChunked (c :: cs0) ++ rest
          = toHexStr c.length ++ '\r' :: '\n'
              :: (c ++ (crlf ++ (encodeChunked cs0 ++ rest))) := by
        simp [encodeChunked, encodeChunk, crlf, List.append_assoc]
      have hlen : c.length ≤ (c ++ (crlf ++ (encodeChunked cs0 ++ rest))).length := by
        simp
      have hfuel0 : cs0.length < f := by
        simp only [List.length_cons] at hfuel
        omega
      have hih := ih f (fun e he => h e (by simp [he])) hfuel0
      rw [hshape]
      simp only [readChunksAux, readLine_append _ _ hhcr, Option.some_bind]
      rw [if_pos ⟨hhne, hhall⟩]
      rw [readNum_toHexStr]
      rw [if_neg hc0, if_pos hlen]
      rw [List.drop_left c _]
      rw [dropLit_append crlf _]
      rw [Option.some_bind]
      rw [hih]
      rw [List.take_left c _]
      rfl

theorem encodeChunked_length_ge (cs : List Str) :
    cs.length + 1 ≤ (encodeChunked cs).length := by
  induction cs with
  | nil => simp [encodeChunked]
  | cons c cs0 ih =>
    have h1 : 1 ≤ (encodeChunk c).length := by
      simp only [encodeChunk, List.length_append, List.length_cons]
      omega
    simp only [encodeChunked, List.map_cons, List.flatten_cons, List.append_assoc,
      List.length_append, List.length_cons] at ih ⊢
    omega

theorem readChunks_round (cs : List Str) (rest : Str) (h : ∀ c ∈ cs, c ≠ []) :
    readChunks (encodeChunked cs ++ rest) = some (cs.flatten, rest) := by
  rw [readChunks]
  apply readChunksAux_round cs rest _ h
  have := encodeChunked_length_ge cs
  simp only [List.length_append]
  omega

/-! ### The full response reader -/

/-- ASCII lowercase, for case-insensitive header lookup. -/
def lowerStr (s : Str) : Str := s.map Char.toLower

/-- Case-insensitive lookup of the first header with the given name. -/
def headerLookup (hs : List (Str × Str)) (name : Str) : Option Str :=
  (hs.find? (fun h => lowerStr h.1 == lowerStr name)).map Prod.snd

/-- An assembled HTTP response (source: `detail/HttpResponse.h`, consumed as a
status code, a header mapping and a body). -/
structure HttpResponse where
  statusCode : Nat
  headers : List (Str × Str)
  body : Str
deriving DecidableEq

/-- The HTTP version token of a status line. -/
def httpTok : Str := ("HTTP/1.1".data)

/-- Extract the numeric status code: the second space-separated token. -/
def parseStatusLine (l : Str) : Option Nat :=
  match splitChar ' ' l with
  | _ :: codeTok :: _ => parseNat codeTok
  | _ => none

/-- The `Content-Length` header name. -/
def clName : Str := ("Content-Length".data)

/-- The `Transfer-Encoding` header name. -/
def teName : Str := ("Transfer-Encoding".data)

/-- The `chunked` transfer coding token. -/
def chunkedVal : Str := ("chunked".data)

/-- Modelled from the spec: assemble one complete HTTP response from the
received bytes.  Body framing: `Content-Length` when present, otherwise
chunked decoding when declared, otherwise everything up to end-of-stream.
Returns the response and every unconsumed byte. -/
def readHttpResponse (s : Str) : Option (HttpResponse × Str) :=
  (readLine s).bind fun slr =>
    (parseStatusLine slr.1).bind fun code =>
      (parseHeaders slr.2).bind fun hsr =>
        match headerLookup hsr.1 clName with
        | some clv =>
          (parseNat clv).bind fun n =>
            if n ≤ hsr.2.length then some (⟨code, hsr.1, hsr.2.take n⟩, hsr.2.drop n)
            else none
        | none =>
          if headerLookup hsr.1 teName == some chunkedVal then
            (readChunks hsr.2).map fun br => (⟨code, hsr.1, br.1⟩, br.2)
          else some (⟨code, hsr.1, hsr.2⟩, [])

/-- A status line with the given code and reason text. -/
def statusLineOf (code : Nat) (reason : Str) : Str :=
  httpTok ++ ' ' :: natToStr code ++ ' ' :: reason

/-- A serialized response: status line, header block, blank line, body. -/
def serializeResponse (code : Nat) (reason : Str) (hs : List (Str × Str))
    (body : Str) : Str :=
  statusLineOf code reason ++ '\r' :: '\n'
    :: ((hs.map serializeHeader).flatten ++ '\r' :: '\n' :: body)

/-- A `Content-Length` header for a given byte count. -/
def clHeader (n : Nat) : Str × Str := (clName, natToStr n)

/-- A `Transfer-Encoding: chunked` header. -/
def teHeader : Str × Str := (teName, chunkedVal)

theorem natToStr_chars (n : Nat) (c : Char) (hc : c ∈ natToStr n) :
    c ≠ ' ' ∧ c ≠ '\r' ∧ c ≠ ':' := by
  have hall := (natToStr_spec n).2
  rw [List.all_eq_true] at hall
  exact isDigit_not_special c (hall c hc)

theorem statusLineOf_shape (code : Nat) (reason : Str) :
    statusLineOf code reason = httpTok ++ ' ' :: (natToStr code ++ ' ' :: reason) := by
  simp [statusLineOf]

theorem parseStatusLine_round (code : Nat) (reason : Str) :
    parseStatusLine (statusLineOf code reason) = some code := by
  have h1 : ' ' ∉ httpTok := by decide
  have h2 : ' ' ∉ natToStr code := fun hc => (natToStr_chars code ' ' hc).1 rfl
  rw [statusLineOf_shape, parseStatusLine, splitChar_append ' ' httpTok _ h1,
    splitChar_append ' ' (natToStr code) reason h2]
  rcases hsp : splitChar ' ' reason with _ | ⟨x, xs⟩
  · exact absurd hsp (splitChar_ne_nil ' ' reason)
  · exact parseNat_natToStr code

theorem cleanHeader_clHeader (n : Nat) : CleanHeader (clHeader n) := by
  have h1 : '\r' ∉ natToStr n := fun hc => (natToStr_chars n '\r' hc).2.1 rfl
  have h2 : List.head? (natToStr n) ≠ some ' ' := by
    intro hc
    have hm : ' ' ∈ natToStr n := List.mem_of_mem_head? (by rw [hc]; rfl)
    exact (natToStr_chars n ' ' hm).1 rfl
  have h3 : List.getLast? (natToStr n) ≠ some ' ' := by
    intro hc
    have hm : ' ' ∈ natToStr n := List.mem_of_mem_getLast? (by rw [hc]; rfl)
    exact (natToStr_chars n ' ' hm).1 rfl
  exact ⟨show '\r' ∉ clName by decide, h1, show ':' ∉ clName by decide,
    show clName ≠ [] by decide,
    ⟨show List.head? clName ≠ some ' ' by decide,
      show List.getLast? clName ≠ some ' ' by decide⟩,
    ⟨h2, h3⟩⟩

theorem cleanHeader_teHeader : CleanHeader teHeader := by
  exact ⟨show '\r' ∉ teName by decide, show '\r' ∉ chunkedVal by decide,
    show ':' ∉ teName by decide, show teName ≠ [] by decide,
    ⟨show List.head? teName ≠ some ' ' by decide,
      show List.getLast? teName ≠ some ' ' by decide⟩,
    ⟨show List.head? chunkedVal ≠ some ' ' by decide,
      show List.getLast? chunkedVal ≠ some ' ' by decide⟩⟩

theorem statusLine_no_cr (code : Nat) (reason : Str) (hreason : '\r' ∉ reason) :
    '\r' ∉ statusLineOf code reason := by
  have hhttp : '\r' ∉ httpTok := by decide
  have hnat : '\r' ∉ natToStr code := fun hc => (natToStr_chars code '\r' hc).2.1 rfl
  intro hmem
  rw [statusLineOf_shape] at hmem
  simp only [List.mem_append, List.mem_cons] at hmem
  rcases hmem with hmem | hmem | hmem | hmem | hmem
  · exact hhttp hmem
  · exact absurd hmem (by decide)
  · exact hnat hmem
  · exact absurd hmem (by decide)
  · exact hreason hmem

/-- A complete response framed by `Content-Length` is parsed back exactly, and
every byte past its end is returned as unconsumed surplus. -/
theorem readHttpResponse_CL (code : Nat) (reason : Str) (extra : List (Str × Str))
    (body rest : Str) (hreason : '\r' ∉ reason)
    (hextra : ∀ h ∈ extra, CleanHeader h) :
    readHttpResponse (serializeResponse code reason (clHeader body.length :: extra) body ++ rest)
      = some (⟨code, clHeader body.length :: extra, body⟩, rest) := by
  have hshape : serializeResponse code reason (clHeader body.length :: extra) body ++ rest
      = statusLineOf code reason ++ '\r' :: '\n'
          :: ((((clHeader body.length :: extra).map serializeHeader).flatten)
            ++ '\r' :: '\n' :: (body ++ rest)) := by
    simp [serializeResponse, List.append_assoc]
  rw [hshape, readHttpResponse,
    readLine_append _ _ (statusLine_no_cr code reason hreason), Option.some_bind,
    parseStatusLine_round, Option.some_bind,
    parseHeaders_round _ _ (by
      intro g hg
      rcases List.mem_cons.mp hg with hg | hg
      · rw [hg]
        exact cleanHeader_clHeader body.length
      · exact hextra g hg),
    Option.some_bind]
  have hlook : headerLookup (clHeader body.length :: extra) clName = some (natToStr body.length) := by
    rw [headerLookup, List.find?_cons_of_pos _ (by simp [clHeader])]
    rfl
  simp only [Option.some_bind, hlook, parseNat_natToStr]
  rw [if_pos (by simp : body.length ≤ (body ++ rest).length)]
  rw [List.take_left body rest, List.drop_left body rest]

/-- A complete chunked response (no `Content-Length`) is parsed back exactly:
the body is the concatenation of the chunks and the bytes after the
terminating chunk are returned as unconsumed surplus. -/
theorem readHttpResponse_chunked (code : Nat) (reason : Str) (cs : List Str)
    (rest : Str) (hreason : '\r' ∉ reason) (hcs : ∀ c ∈ cs, c ≠ []) :
    readHttpResponse (serializeResponse code reason [teHeader] (encodeChunked cs) ++ rest)
      = some (⟨code, [teHeader], cs.flatten⟩, rest) := by
  have hshape : serializeResponse code reason [teHeader] (encodeChunked cs) ++ rest
      = statusLineOf code reason ++ '\r' :: '\n'
          :: ((([teHeader] : List (Str × Str)).map serializeHeader).flatten
            ++ '\r' :: '\n' :: (encodeChunked cs ++ rest)) := by
    simp [serializeResponse, List.append_assoc]
  rw [hshape, readHttpResponse,
    readLine_append _ _ (statusLine_no_cr code reason hreason), Option.some_bind,
    parseStatusLine_round, Option.some_bind,
    parseHeaders_round _ _ (by
      intro g hg
      rcases List.mem_cons.mp hg with hg | hg
      · rw [hg]
        exact cleanHeader_teHeader
      · simp at hg),
    Option.some_bind]
  have hlookCL : headerLookup [teHeader] clName = none := by decide
  have hlookTE : (headerLookup [teHeader] teName == some chunkedVal) = true := by decide
  simp [hlookCL, hlookTE, readChunks_round cs rest hcs]

/-! ### The Connection

The class `Connection` (source: `Connection.h`, lines 66-174).  The key
accessor and setter are inline in the header; the request/response cycle
(`get`, `post`, `del`) is declared there but its body is not among the
supplied sources and is modelled from the spec. -/

/-- The connection state: host, port, API key and URL path root (the source
member is named `m_prefix`). -/
structure Connection where
  m_host : Str
  m_port : Nat
  m_key : Str
  m_urlRoot : Str
deriving DecidableEq

/-- Source: `Connection::key` (line 90): return the currently set api_key. -/
def Connection.key (c : Connection) : Str := c.m_key

/-- Source: `Connection::setKey` (line 94): the key is stored unchanged; no
validation of its content. -/
def Connection.setKey (c : Connection) (api_key : Str) : Connection :=
  { c with m_key := api_key }

/-- The JSON collaborator's value type: per the spec an opaque structured
value with a null constructor and a number constructor. -/
inductive Json where
  | null
  | num (n : Nat)
  | value (doc : Str)
deriving DecidableEq

/-- The transport collaborator, reduced to its observable outcome for one
request: either no connection could be established, or the request is written
and the transport delivers a byte stream. -/
inductive TransportOutcome where
  | noConnect
  | stream (data : Str)
deriving DecidableEq

/-- Protocol-level failure (malformed response framing): thrown as an
exception by the source, modelled as an error result. -/
inductive CallError where
  | malformedResponse
deriving DecidableEq

/-- The `api_key` parameter name of the OpenML REST API. -/
def apiKeyName : Str := ("api_key".data)

/-- Modelled from the spec: the API key is attached as a parameter to every
outgoing request when set. -/
def effectiveParams (c : Connection) (ps : ParamType) : ParamType :=
  if c.m_key = [] then ps else ps ++ [(apiKeyName, c.m_key)]

/-- What one request puts on the wire: method, target path (with the URL
root), query string, and body. -/
structure SentRequest where
  method : Str
  target : Str
  query : Str
  body : Str
deriving DecidableEq

/-- Modelled from the spec: a GET request: parameters (with the key) go into
the query string; the body is empty. -/
def buildGet (c : Connection) (path : Str) (ps : ParamType) : SentRequest :=
  ⟨("GET".data), c.m_urlRoot ++ path, encodeQuery (effectiveParams c ps), []⟩

/-- Modelled from the spec: a DELETE request, encoded like GET. -/
def buildDelete (c : Connection) (path : Str) (ps : ParamType) : SentRequest :=
  ⟨("DELETE".data), c.m_urlRoot ++ path, encodeQuery (effectiveParams c ps), []⟩

/-- Modelled from the spec: a POST request: parameters (with the key) are
encoded into the body; a malformed parameter name is signalled. -/
def buildPost (c : Connection) (b : Str) (path : Str) (ps : ParamType) :
    Except EncErr SentRequest :=
  match encodeUpload b (effectiveParams c ps) with
  | Except.error e => Except.error e
  | Except.ok enc => Except.ok ⟨("POST".data), c.m_urlRoot ++ path, [], enc.body⟩

/-- Modelled from the spec: `Connection::receiveResponse` assembles one
complete response from the read buffer; the second component is what remains
in `m_readbuffer` afterwards. -/
def receiveResponse (readbuffer : Str) : Option (HttpResponse × Str) :=
  readHttpResponse readbuffer

/-- Modelled from the spec: the reply for one received response: the decoded
JSON body when the status is in the success range; the status code as a JSON
number otherwise, or when decoding the body fails. -/
def statusReply (parse : Str → Option Json) (resp : HttpResponse) : Json :=
  if 200 ≤ resp.statusCode ∧ resp.statusCode < 300 then
    (parse resp.body).getD (Json.num resp.statusCode)
  else Json.num resp.statusCode

/-- Modelled from the spec: the reply decided from one transport outcome:
null when no connection could be established, otherwise the status reply of
the received response.  Only malformed framing is an error (a thrown
exception in the source). -/
def processResponse (parse : Str → Option Json) (outcome : TransportOutcome) :
    Except CallError Json :=
  match outcome with
  | TransportOutcome.noConnect => Except.ok Json.null
  | TransportOutcome.stream data =>
    match receiveResponse data with
    | none => Except.error CallError.malformedResponse
    | some rs => Except.ok (statusReply parse rs.1)

/-- Modelled from the spec: `Connection::get`: the request written (when a
connection exists) and the structured reply. -/
def connGet (parse : Str → Option Json) (c : Connection) (path : Str)
    (ps : ParamType) (outcome : TransportOutcome) :
    Option SentRequest × Except CallError Json :=
  match outcome with
  | TransportOutcome.noConnect => (none, Except.ok Json.null)
  | TransportOutcome.stream _ =>
    (some (buildGet c path ps), processResponse parse outcome)

/-- Modelled from the spec: `Connection::del`. -/
def connDel (parse : Str → Option Json) (c : Connection) (path : Str)
    (ps : ParamType) (outcome : TransportOutcome) :
    Option SentRequest × Except CallError Json :=
  match outcome with
  | TransportOutcome.noConnect => (none, Except.ok Json.null)
  | TransportOutcome.stream _ =>
    (some (buildDelete c path ps), processResponse parse outcome)

/-- Modelled from the spec: `Connection::post`; encoding the parameters can
signal a caller-usage error. -/
def connPost (parse : Str → Option Json) (c : Connection) (b : Str) (path : Str)
    (ps : ParamType) (outcome : TransportOutcome) :
    Except EncErr (Option SentRequest × Except CallError Json) :=
  match outcome with
  | TransportOutcome.noConnect => Except.ok (none, Except.ok Json.null)
  | TransportOutcome.stream _ =>
    match buildPost c b path ps with
    | Except.error e => Except.error e
    | Except.ok req => Except.ok (some req, processResponse parse outcome)

/-! ### DTLZ2 (source: `Benchmarks/DTLZ2.h`) -/

/-- The value range of `std::size_t` on the reference platform. -/
def W64 : Nat := 2 ^ 64

/-- `size_t` subtraction (wrap-around). -/
def subW (a b : Nat) : Nat := (a + (W64 - b % W64)) % W64

/-- `size_t` addition (wrap-around). -/
def addW (a b : Nat) : Nat := (a + b) % W64

/-- The real-valued operations the benchmark consumes (`std::cos`,
`std::sin`, `M_PI`), supplied abstractly. -/
structure TrigOps (α : Type) where
  cosf : α → α
  sinf : α → α
  pi : α

/-- The DTLZ2 object state: `m_objectives`, the box-constraint handler's
bound vectors, and the evaluation counter of the base class. -/
structure DTLZ2 (α : Type) where
  m_objectives : Nat
  m_lower : List α
  m_upper : List α
  m_evaluationCounter : Nat

/-- Source: constructor `DTLZ2(numVariables)` (line 52): two objectives and
bounds `[0,1]` in every coordinate. -/
def DTLZ2.init {α : Type} [Field α] (numVariables : Nat) : DTLZ2 α :=
  ⟨2, List.replicate numVariables 0, List.replicate numVariables 1, 0⟩

/-- Source: `numberOfObjectives` (line 60). -/
def DTLZ2.numberOfObjectives {α : Type} (s : DTLZ2 α) : Nat := s.m_objectives

/-- Source: `numberOfVariables` (line 70): the handler's dimension. -/
def DTLZ2.numberOfVariables {α : Type} (s : DTLZ2 α) : Nat := s.m_lower.length

/-- Source: `setNumberOfObjectives` (line 66). -/
def DTLZ2.setNumberOfObjectives {α : Type} (s : DTLZ2 α) (m : Nat) : DTLZ2 α :=
  { s with m_objectives := m }

/-- Source: `setNumberOfVariables` (line 80): resets the bounds. -/
def DTLZ2.setNumberOfVariables {α : Type} [Field α] (s : DTLZ2 α) (n : Nat) : DTLZ2 α :=
  { s with m_lower := List.replicate n 0, m_upper := List.replicate n 1 }

/-- `k = numberOfVariables() - numberOfObjectives() + 1`, in `size_t`
arithmetic (line 92). -/
def evalK (m n : Nat) : Nat := addW (subW n m) 1

/-- The first index of the `g` loop: `numberOfVariables() - k` (line 94). -/
def evalStart (m n : Nat) : Nat := subW n (evalK m n)

/-- The coordinate indices at which `eval` reads the search point `x`: the
`g` loop reads `x(i)` for `i` from `numberOfVariables() - k` while
`i < numberOfVariables()` (lines 94-95); the objective loop reads `x(j)` for
`j < numberOfObjectives() - i - 1` (lines 99-100) and, for `i > 0`,
`x(numberOfObjectives() - i - 1)` (lines 102-103). -/
def evalReads (m n : Nat) : List Nat :=
  (List.range n).filter (fun i => evalStart m n ≤ i)
    ++ (List.range m).flatMap (fun i =>
        List.range (m - i - 1) ++ (if 0 < i then [m - i - 1] else []))

/-- Source: `DTLZ2::eval` (lines 87-107), value computation: `g` sums the
squared distance of the tail coordinates from one half; each objective starts
at `1 + g`, multiplies cosine factors, and (except the first) one sine
factor. -/
def evalValue {α : Type} [Field α] (ops : TrigOps α) (m n : Nat) (x : Nat → α) :
    List α :=
  let g := ((List.range n).filter (fun i => evalStart m n ≤ i)).foldl
    (fun a i => a + (x i - 1 / 2) * (x i - 1 / 2)) 0
  (List.range m).map (fun i =>
    let base := (List.range (m - i - 1)).foldl
      (fun a j => a * ops.cosf (x j * ops.pi / 2)) (1 + g)
    if 0 < i then base * ops.sinf (x (m - i - 1) * ops.pi / 2) else base)

/-- Source: `DTLZ2::eval`: increments the mutable evaluation counter (line
88) and computes the objective vector; no other member is touched. -/
def DTLZ2.eval {α : Type} [Field α] (ops : TrigOps α) (s : DTLZ2 α) (x : Nat → α) :
    DTLZ2 α × List α :=
  ({ s with m_evaluationCounter := s.m_evaluationCounter + 1 },
    evalValue ops s.numberOfObjectives s.numberOfVariables x)

/-! ### The claims -/

/-- C9: for every DTLZ2 instance whose number of variables `n` satisfies
`n + 1 ≥ m` (with `n` in `size_t` range), every coordinate index that `eval`
uses to read the search point lies in `[0, n)`, so evaluation on a point of
dimension `n` is in bounds; `k` is computed as `n - m + 1` in unsigned
arithmetic and the objective loops read `x(j)` for `j` up to `m - 2`. -/
theorem C9_eval_reads_in_bounds (m n : Nat) (hn : n < W64) (hm : m ≤ n + 1) :
    ∀ idx ∈ evalReads m n, idx < n := by
  intro idx hidx
  rw [evalReads, List.mem_append] at hidx
  rcases hidx with hidx | hidx
  · rw [List.mem_filter, List.mem_range] at hidx
    exact hidx.1
  · rw [List.mem_flatMap] at hidx
    obtain ⟨i, hi, hread⟩ := hidx
    rw [List.mem_range] at hi
    rw [List.mem_append] at hread
    rcases hread with hread | hread
    · rw [List.mem_range] at hread
      omega
    · by_cases h0 : 0 < i
      · rw [if_pos h0, List.mem_singleton] at hread
        omega
      · rw [if_neg h0] at hread
        simp at hread

/-- C9 witness: a three-objective instance on seven variables. -/
theorem C9_eval_reads_in_bounds_witness :
    7 < W64 ∧ 3 ≤ 7 + 1 ∧ ∀ idx ∈ evalReads 3 7, idx < 7 :=
  ⟨by decide, by decide, C9_eval_reads_in_bounds 3 7 (by decide) (by decide)⟩

/-- C10: every call to `DTLZ2::eval` increments the evaluation counter by
exactly one and leaves all other observable state unchanged:
`numberOfObjectives()`, `numberOfVariables()` and the box-constraint bounds
are the same after the call as before. -/
theorem C10_eval_frame {α : Type} [Field α] (ops : TrigOps α) (s : DTLZ2 α)
    (x : Nat → α) :
    (DTLZ2.eval ops s x).1.m_evaluationCounter = s.m_evaluationCounter + 1
    ∧ (DTLZ2.eval ops s x).1.numberOfObjectives = s.numberOfObjectives
    ∧ (DTLZ2.eval ops s x).1.numberOfVariables = s.numberOfVariables
    ∧ (DTLZ2.eval ops s x).1.m_lower = s.m_lower
    ∧ (DTLZ2.eval ops s x).1.m_upper = s.m_upper :=
  ⟨rfl, rfl, rfl, rfl, rfl⟩

/-- C8: a parameter whose name contains the file-upload separator with no
text before it or no text after it is malformed: the parameter is rejected
and the whole encoding signals the caller-usage error immediately, never
silently tolerating the input. -/
theorem C8_malformed_name_signalled (ps : ParamType) (b : Str) (n v : Str)
    (hmem : (n, v) ∈ ps)
    (hmal : (∃ t, n = '|' :: t) ∨ (∃ t, n = t ++ ['|'])) :
    paramToPart (n, v) = Except.error EncErr.malformedName
    ∧ encodeUpload b ps = Except.error EncErr.malformedName := by
  have herr := paramToPart_error_of_malformed n v hmal
  refine ⟨herr, ?_⟩
  have hsep : '|' ∈ n := by
    rcases hmal with ⟨t, rfl⟩ | ⟨t, rfl⟩
    · simp
    · simp
  rw [encodeUpload, if_pos (hasFileParam_of_mem ps n v hmem hsep),
    paramsToParts_error ps n v hmem herr]

/-- C8 witness: the name `|x` (no text before the separator). -/
theorem C8_malformed_name_signalled_witness :
    paramToPart (("|x".data), ("v".data)) = Except.error EncErr.malformedName
    ∧ encodeUpload ("B".data) [(("|x".data), ("v".data))]
        = Except.error EncErr.malformedName :=
  C8_malformed_name_signalled [(("|x".data), ("v".data))] ("B".data) ("|x".data)
    ("v".data) (by simp) (Or.inl ⟨("x".data), rfl⟩)

/-- C4: a file parameter named `name|mime-type|filename` produces a part with
the declared filename, the declared MIME type, and the parameter's value as
the part body; the two-field form `name|mime-type` uses the name itself as
the filename; a non-file name produces a part with only the field name in its
disposition.  The serialized part carries exactly these fields, as its parse
shows. -/
theorem C4_file_part_fields (name mime fn v : Str)
    (ha : '|' ∉ name) (hb : '|' ∉ mime) (hc : '|' ∉ fn)
    (hna : name ≠ []) (hnb : mime ≠ []) (hnc : fn ≠ [])
    (hq1 : dq ∉ name) (hq2 : dq ∉ fn) (hm : '\r' ∉ mime) :
    paramToPart (name ++ '|' :: (mime ++ '|' :: fn), v)
      = Except.ok ⟨name, some fn, some mime, v⟩
    ∧ paramToPart (name ++ '|' :: mime, v) = Except.ok ⟨name, some name, some mime, v⟩
    ∧ paramToPart (name, v) = Except.ok ⟨name, none, none, v⟩
    ∧ parsePart (serializePart ⟨name, some fn, some mime, v⟩)
        = some ⟨name, some fn, some mime, v⟩
    ∧ parsePart (serializePart ⟨name, none, none, v⟩) = some ⟨name, none, none, v⟩ := by
  refine ⟨?_, ?_, ?_, parsePart_file name mime fn v hq1 hq2 hm, parsePart_plain name v hq1⟩
  · simp [paramToPart, parseParamName_three name mime fn ha hb hc hna hnb hnc]
  · simp [paramToPart, parseParamName_two name mime ha hb hna hnb]
  · simp [paramToPart, parseParamName_plain name ha]

/-- C4 witness: the spec's example `file|text/plain|hello.txt` with content
`hi`, and the two-field form `file|text/plain`. -/
theorem C4_file_part_fields_witness :
    paramToPart (("file|text/plain|hello.txt".data), ("hi".data))
      = Except.ok ⟨("file".data), some ("hello.txt".data), some ("text/plain".data), ("hi".data)⟩
    ∧ paramToPart (("file|text/plain".data), ("hi".data))
        = Except.ok ⟨("file".data), some ("file".data), some ("text/plain".data), ("hi".data)⟩
    ∧ paramToPart (("file".data), ("hi".data))
        = Except.ok ⟨("file".data), none, none, ("hi".data)⟩
    ∧ parsePart (serializePart ⟨("file".data), some ("hello.txt".data),
        some ("text/plain".data), ("hi".data)⟩)
        = some ⟨("file".data), some ("hello.txt".data), some ("text/plain".data), ("hi".data)⟩
    ∧ parsePart (serializePart ⟨("file".data), none, none, ("hi".data)⟩)
        = some ⟨("file".data), none, none, ("hi".data)⟩ :=
  C4_file_part_fields ("file".data) ("text/plain".data) ("hello.txt".data) ("hi".data)
    (by decide) (by decide) (by decide) (by decide) (by decide) (by decide)
    (by decide) (by decide) (by decide)

/-- C5: when no `Content-Length` is present and the transfer is chunked, the
response reader decodes chunk-size-prefixed segments until the terminating
zero-length chunk and returns their concatenation as the body; in particular
the chunked input `3\r\nabc\r\n0\r\n\r\n` yields body `abc`. -/
theorem C5_chunked_decoding (cs : List Str) (rest : Str) (code : Nat) (reason : Str)
    (hcs : ∀ c ∈ cs, c ≠ []) (hreason : '\r' ∉ reason) :
    readChunks (encodeChunked cs ++ rest) = some (cs.flatten, rest)
    ∧ readHttpResponse (serializeResponse code reason [teHeader] (encodeChunked cs) ++ rest)
        = some (⟨code, [teHeader], cs.flatten⟩, rest)
    ∧ readChunks (("3\r\nabc\r\n0\r\n\r\n".data)) = some (("abc".data), []) :=
  ⟨readChunks_round cs rest hcs,
    readHttpResponse_chunked code reason cs rest hreason hcs, by decide⟩

/-- C5 witness: the single chunk `abc`. -/
theorem C5_chunked_decoding_witness :
    readChunks (encodeChunked [("abc".data)] ++ []) = some (([("abc".data)]).flatten, [])
    ∧ readHttpResponse (serializeResponse 200 ("OK".data) [teHeader]
        (encodeChunked [("abc".data)]) ++ [])
        = some (⟨200, [teHeader], ([("abc".data)]).flatten⟩, [])
    ∧ readChunks (("3\r\nabc\r\n0\r\n\r\n".data)) = some (("abc".data), []) :=
  C5_chunked_decoding [("abc".data)] [] 200 ("OK".data) (by decide) (by decide)

/-- C6: after a complete HTTP response has been assembled and returned, every
byte read beyond the end of that response remains in the connection's shared
read buffer for the next request: the surplus is returned exactly, never
discarded, for both Content-Length and chunked framing. -/
theorem C6_surplus_retained (code : Nat) (reason : Str) (extra : List (Str × Str))
    (body surplus : Str) (cs : List Str) (hreason : '\r' ∉ reason)
    (hextra : ∀ h ∈ extra, CleanHeader h) (hcs : ∀ c ∈ cs, c ≠ []) :
    receiveResponse (serializeResponse code reason (clHeader body.length :: extra) body
        ++ surplus)
      = some (⟨code, clHeader body.length :: extra, body⟩, surplus)
    ∧ receiveResponse (serializeResponse code reason [teHeader] (encodeChunked cs)
        ++ surplus)
      = some (⟨code, [teHeader], cs.flatten⟩, surplus) :=
  ⟨readHttpResponse_CL code reason extra body surplus hreason hextra,
    readHttpResponse_chunked code reason cs surplus hreason hcs⟩

/-- C6 witness: a five-byte body followed by four surplus bytes. -/
theorem C6_surplus_retained_witness :
    receiveResponse (serializeResponse 200 ("OK".data)
        [clHeader (("hello".data).length)] ("hello".data) ++ ("NEXT".data))
      = some (⟨200, [clHeader (("hello".data).length)], ("hello".data)⟩, ("NEXT".data))
    ∧ receiveResponse (serializeResponse 200 ("OK".data) [teHeader]
        (encodeChunked [("a".data)]) ++ ("NEXT".data))
      = some (⟨200, [teHeader], ([("a".data)]).flatten⟩, ("NEXT".data)) :=
  C6_surplus_retained 200 ("OK".data) [] ("hello".data) ("NEXT".data) [("a".data)]
    (by decide) (by simp) (by decide)

/-- C3: `RequestEncoder.encode` emits the parameters in exactly the input
order for both forms: decoding the URL-encoded body recovers the parameter
list exactly, and the multipart body decodes to one part per parameter in
input order, carrying the parameters' field names and values. -/
theorem C3_order_preserved (ps : ParamType) (b : Str) (parts : List Part)
    (hbytes : ∀ p ∈ ps, BytePair p)
    (hparts : paramsToParts ps = Except.ok parts)
    (hclean : ∀ p ∈ parts, cleanFor (dashBoundary b) (serializePart p))
    (htail : noOccur (dashBoundary b) closingSeq)
    (hwf : ∀ p ∈ parts, WellFormedPart p) :
    decodeQuery (encodeQuery ps) = ps
    ∧ decodeMultipart b (multipartBody b parts) = some parts
    ∧ parts.map Part.fieldName = ps.map (fun p => baseName p.1)
    ∧ parts.map Part.content = ps.map Prod.snd
    ∧ (hasFileParam ps = true →
        encodeUpload b ps
          = Except.ok ⟨("multipart/form-data; boundary=".data) ++ b, multipartBody b parts⟩)
    ∧ (hasFileParam ps = false →
        encodeUpload b ps
          = Except.ok ⟨("application/x-www-form-urlencoded".data), encodeQuery ps⟩) := by
  obtain ⟨hcont, hnames⟩ := paramsToParts_fields ps parts hparts
  refine ⟨decodeQuery_encodeQuery ps hbytes,
    decodeMultipart_multipartBody b parts hclean htail hwf, hnames, hcont, ?_, ?_⟩
  · intro hfile
    rw [encodeUpload, if_pos hfile, hparts]
  · intro hnofile
    rw [encodeUpload, if_neg (by simp [hnofile])]

/-- C3 witness: one file parameter, decoded back from the multipart body. -/
theorem C3_order_preserved_witness :
    decodeQuery (encodeQuery [(("file|text/plain|hello.txt".data), ("hi".data))])
      = [(("file|text/plain|hello.txt".data), ("hi".data))]
    ∧ decodeMultipart ("BBB".data) (multipartBody ("BBB".data)
        [⟨("file".data), some ("hello.txt".data), some ("text/plain".data), ("hi".data)⟩])
      = some [⟨("file".data), some ("hello.txt".data), some ("text/plain".data), ("hi".data)⟩]
    ∧ ([⟨("file".data), some ("hello.txt".data), some ("text/plain".data),
          ("hi".data)⟩] : List Part).map Part.fieldName
      = [(("file|text/plain|hello.txt".data), ("hi".data))].map (fun p => baseName p.1)
    ∧ ([⟨("file".data), some ("hello.txt".data), some ("text/plain".data),
          ("hi".data)⟩] : List Part).map Part.content
      = [(("file|text/plain|hello.txt".data), ("hi".data))].map Prod.snd
    ∧ (hasFileParam [(("file|text/plain|hello.txt".data), ("hi".data))] = true →
        encodeUpload ("BBB".data) [(("file|text/plain|hello.txt".data), ("hi".data))]
          = Except.ok ⟨("multipart/form-data; boundary=".data) ++ ("BBB".data),
              multipartBody ("BBB".data) [⟨("file".data), some ("hello.txt".data),
                some ("text/plain".data), ("hi".data)⟩]⟩)
    ∧ (hasFileParam [(("file|text/plain|hello.txt".data), ("hi".data))] = false →
        encodeUpload ("BBB".data) [(("file|text/plain|hello.txt".data), ("hi".data))]
          = Except.ok ⟨("application/x-www-form-urlencoded".data),
              encodeQuery [(("file|text/plain|hello.txt".data), ("hi".data))]⟩) :=
  C3_order_preserved [(("file|text/plain|hello.txt".data), ("hi".data))] ("BBB".data)
    [⟨("file".data), some ("hello.txt".data), some ("text/plain".data), ("hi".data)⟩]
    (by decide) (by rfl) (by decide) (by decide)
    (by
      intro p hp
      rw [List.mem_singleton] at hp
      subst hp
      refine ⟨by decide, ?_⟩
      show dq ∉ ("hello.txt".data) ∧ '\r' ∉ ("text/plain".data)
      exact ⟨by decide, by decide⟩)

/-- C7: when an API key has been set via the explicit setter it is attached
as a parameter to every outgoing request — GET, POST and DELETE alike, for
URL-encoded and multipart POST bodies both — and the client does not
validate the key's content: the setter stores any string unchanged.  GET and
DELETE carry the pair in their decoded query string; a URL-encoded POST body
decodes to a parameter list containing the pair; a multipart POST body gains
one part holding the key, which decoding the wire bytes recovers. -/
theorem C7_api_key_attached (c : Connection) (k path b : Str) (ps : ParamType)
    (hk : k ≠ []) (hkb : ByteStr k) (hps : ∀ p ∈ ps, BytePair p) :
    (c.setKey k).key = k
    ∧ (∀ k2, (c.setKey k2).key = k2)
    ∧ (apiKeyName, k) ∈ decodeQuery (buildGet (c.setKey k) path ps).query
    ∧ (apiKeyName, k) ∈ decodeQuery (buildDelete (c.setKey k) path ps).query
    ∧ (hasFileParam (effectiveParams (c.setKey k) ps) = false →
        ∀ req, buildPost (c.setKey k) b path ps = Except.ok req →
          (apiKeyName, k) ∈ decodeQuery req.body)
    ∧ (∀ req, buildPost (c.setKey k) b path ps = Except.ok req →
        hasFileParam (effectiveParams (c.setKey k) ps) = true →
        ∃ parts, paramsToParts (effectiveParams (c.setKey k) ps) = Except.ok parts
          ∧ req.body = multipartBody b parts
          ∧ (⟨apiKeyName, none, none, k⟩ : Part) ∈ parts
          ∧ ((∀ p ∈ parts, cleanFor (dashBoundary b) (serializePart p)) →
              noOccur (dashBoundary b) closingSeq →
              (∀ p ∈ parts, WellFormedPart p) →
              decodeMultipart b req.body = some parts)) := by
  have heff : effectiveParams (c.setKey k) ps = ps ++ [(apiKeyName, k)] := by
    have hk2 : (c.setKey k).m_key ≠ [] := hk
    rw [effectiveParams, if_neg hk2]
    rfl
  have hbytes : ∀ p ∈ ps ++ [(apiKeyName, k)], BytePair p := by
    intro p hp
    rcases List.mem_append.mp hp with hp | hp
    · exact hps p hp
    · rw [List.mem_singleton] at hp
      subst hp
      exact ⟨show ByteStr apiKeyName by decide, hkb⟩
  have hdec : decodeQuery (encodeQuery (ps ++ [(apiKeyName, k)])) = ps ++ [(apiKeyName, k)] :=
    decodeQuery_encodeQuery _ hbytes
  have hmem : (apiKeyName, k) ∈ ps ++ [(apiKeyName, k)] := by simp
  refine ⟨rfl, fun k2 => rfl, ?_, ?_, ?_, ?_⟩
  · show (apiKeyName, k) ∈ decodeQuery (encodeQuery (effectiveParams (c.setKey k) ps))
    rw [heff, hdec]
    exact hmem
  · show (apiKeyName, k) ∈ decodeQuery (encodeQuery (effectiveParams (c.setKey k) ps))
    rw [heff, hdec]
    exact hmem
  · intro hnofile req hreq
    have henc : encodeUpload b (effectiveParams (c.setKey k) ps)
        = Except.ok ⟨("application/x-www-form-urlencoded".data),
            encodeQuery (effectiveParams (c.setKey k) ps)⟩ := by
      rw [encodeUpload, if_neg (by simp [hnofile])]
    unfold buildPost at hreq
    rw [henc] at hreq
    simp only [Except.ok.injEq] at hreq
    subst hreq
    show (apiKeyName, k) ∈ decodeQuery (encodeQuery (effectiveParams (c.setKey k) ps))
    rw [heff, hdec]
    exact hmem
  · intro req hreq hfile
    cases hpp : paramsToParts (effectiveParams (c.setKey k) ps) with
    | error e =>
      have henc : encodeUpload b (effectiveParams (c.setKey k) ps) = Except.error e := by
        rw [encodeUpload, if_pos hfile, hpp]
      unfold buildPost at hreq
      rw [henc] at hreq
      exact absurd hreq (by simp)
    | ok parts =>
      have henc : encodeUpload b (effectiveParams (c.setKey k) ps)
          = Except.ok ⟨("multipart/form-data; boundary=".data) ++ b,
              multipartBody b parts⟩ := by
        rw [encodeUpload, if_pos hfile, hpp]
      unfold buildPost at hreq
      rw [henc] at hreq
      simp only [Except.ok.injEq] at hreq
      subst hreq
      refine ⟨parts, rfl, rfl, ?_, ?_⟩
      · have hkeypart : paramsToParts [(apiKeyName, k)]
            = Except.ok [⟨apiKeyName, none, none, k⟩] := rfl
        rw [heff] at hpp
        obtain ⟨ps1, ps2, hsplit, hxs, hys⟩ :=
          paramsToParts_append ps [(apiKeyName, k)] parts hpp
        rw [hkeypart] at hys
        simp only [Except.ok.injEq] at hys
        rw [hsplit, ← hys]
        simp
      · intro hclean htail hwf
        exact decodeMultipart_multipartBody b parts hclean htail hwf

/-- C7 witness: key `KEY` on GET/DELETE/POST requests, once with a plain
parameter list (URL-encoded body) and once with a file parameter (multipart
body). -/
theorem C7_api_key_attached_witness :
    ((⟨[], 443, [], []⟩ : Connection).setKey ("KEY".data)).key = ("KEY".data)
    ∧ (∀ k2, ((⟨[], 443, [], []⟩ : Connection).setKey k2).key = k2)
    ∧ (apiKeyName, ("KEY".data)) ∈ decodeQuery
        (buildGet ((⟨[], 443, [], []⟩ : Connection).setKey ("KEY".data)) ("/d".data)
          [(("file|text/plain|hello.txt".data), ("hi".data))]).query
    ∧ (apiKeyName, ("KEY".data)) ∈ decodeQuery
        (buildDelete ((⟨[], 443, [], []⟩ : Connection).setKey ("KEY".data)) ("/d".data)
          [(("file|text/plain|hello.txt".data), ("hi".data))]).query
    ∧ (∀ req, buildPost ((⟨[], 443, [], []⟩ : Connection).setKey ("KEY".data)) ("B".data)
          ("/d".data) [(("file|text/plain|hello.txt".data), ("hi".data))] = Except.ok req →
        hasFileParam (effectiveParams ((⟨[], 443, [], []⟩ : Connection).setKey ("KEY".data))
          [(("file|text/plain|hello.txt".data), ("hi".data))]) = true →
        ∃ parts, paramsToParts (effectiveParams
            ((⟨[], 443, [], []⟩ : Connection).setKey ("KEY".data))
            [(("file|text/plain|hello.txt".data), ("hi".data))]) = Except.ok parts
          ∧ req.body = multipartBody ("B".data) parts
          ∧ (⟨apiKeyName, none, none, ("KEY".data)⟩ : Part) ∈ parts
          ∧ ((∀ p ∈ parts, cleanFor (dashBoundary ("B".data)) (serializePart p)) →
              noOccur (dashBoundary ("B".data)) closingSeq →
              (∀ p ∈ parts, WellFormedPart p) →
              decodeMultipart ("B".data) req.body = some parts))
    ∧ (∀ req, buildPost ((⟨[], 443, [], []⟩ : Connection).setKey ("KEY".data)) ("B".data)
          ("/d".data) [(("limit".data), ("10".data))] = Except.ok req →
        (apiKeyName, ("KEY".data)) ∈ decodeQuery req.body) := by
  have h1 := C7_api_key_attached ⟨[], 443, [], []⟩ ("KEY".data) ("/d".data) ("B".data)
    [(("file|text/plain|hello.txt".data), ("hi".data))] (by decide) (by decide) (by decide)
  have h2 := C7_api_key_attached ⟨[], 443, [], []⟩ ("KEY".data) ("/d".data) ("B".data)
    [(("limit".data), ("10".data))] (by decide) (by decide) (by decide)
  exact ⟨h1.1, h1.2.1, h1.2.2.1, h1.2.2.2.1, h1.2.2.2.2.2,
    h2.2.2.2.2.1 (by decide)⟩

/-- C1: every call to `get`, `post` or `del` returns the three-way
structured reply and never throws for an application-level failure: the
decoded JSON body when the response status is in the success range; the raw
status code wrapped as a JSON number when the status is outside the success
range (even if a decodable JSON body is present) or when the body of a
successful response fails to decode; and the JSON null value when no
transport connection could be established (no exception, no request written
and no partially built response in that case). -/
theorem C1_structured_reply (parse : Str → Option Json) (c : Connection)
    (b path : Str) (ps : ParamType) :
    connGet parse c path ps TransportOutcome.noConnect = (none, Except.ok Json.null)
    ∧ connDel parse c path ps TransportOutcome.noConnect = (none, Except.ok Json.null)
    ∧ connPost parse c b path ps TransportOutcome.noConnect
        = Except.ok (none, Except.ok Json.null)
    ∧ (∀ data resp surplus, receiveResponse data = some (resp, surplus) →
        ((200 ≤ resp.statusCode ∧ resp.statusCode < 300 →
            (∀ j, parse resp.body = some j →
              processResponse parse (TransportOutcome.stream data) = Except.ok j)
            ∧ (parse resp.body = none →
              processResponse parse (TransportOutcome.stream data)
                = Except.ok (Json.num resp.statusCode)))
          ∧ (¬(200 ≤ resp.statusCode ∧ resp.statusCode < 300) →
            processResponse parse (TransportOutcome.stream data)
              = Except.ok (Json.num resp.statusCode))))
    ∧ (∀ data, (connGet parse c path ps (TransportOutcome.stream data)).2
          = processResponse parse (TransportOutcome.stream data)
        ∧ (connDel parse c path ps (TransportOutcome.stream data)).2
          = processResponse parse (TransportOutcome.stream data)
        ∧ ∀ req, buildPost c b path ps = Except.ok req →
            connPost parse c b path ps (TransportOutcome.stream data)
              = Except.ok (some req, processResponse parse (TransportOutcome.stream data))) := by
  refine ⟨rfl, rfl, rfl, ?_, ?_⟩
  · intro data resp surplus hresp
    have hstream : processResponse parse (TransportOutcome.stream data)
        = Except.ok (statusReply parse resp) := by
      rw [processResponse, hresp]
    refine ⟨fun hsucc => ⟨?_, ?_⟩, fun hfail => ?_⟩
    · intro j hj
      rw [hstream, statusReply, if_pos hsucc, hj]
      rfl
    · intro hj
      rw [hstream, statusReply, if_pos hsucc, hj]
      rfl
    · rw [hstream, statusReply, if_neg hfail]
  · intro data
    refine ⟨rfl, rfl, ?_⟩
    intro req hreq
    rw [connPost, hreq]

/-- C1 witness: a connection failure yields null; a 404 response carrying a
decodable JSON body yields the number 404, for `post` as for the reply logic
itself. -/
theorem C1_structured_reply_witness :
    connGet (fun s => some (Json.value s)) ⟨[], 443, [], []⟩ ("/x".data) []
        TransportOutcome.noConnect = (none, Except.ok Json.null)
    ∧ processResponse (fun s => some (Json.value s))
        (TransportOutcome.stream (("HTTP/1.1 404 Not Found\r\nContent-Length: 2\r\n\r\n[]".data)))
        = Except.ok (Json.num 404)
    ∧ connPost (fun s => some (Json.value s)) ⟨[], 443, [], []⟩ ("B".data) ("/x".data) []
        (TransportOutcome.stream (("HTTP/1.1 404 Not Found\r\nContent-Length: 2\r\n\r\n[]".data)))
        = Except.ok (some ⟨("POST".data), ("/x".data), [], []⟩, Except.ok (Json.num 404)) := by
  have h := C1_structured_reply (fun s => some (Json.value s)) ⟨[], 443, [], []⟩
    ("B".data) ("/x".data) []
  obtain ⟨hget, hdel, hpostnc, hcases, hmeth⟩ := h
  have hresp : receiveResponse (("HTTP/1.1 404 Not Found\r\nContent-Length: 2\r\n\r\n[]".data))
      = some (⟨404, [(("Content-Length".data), ("2".data))], ("[]".data)⟩, []) := by
    decide
  have hfail := (hcases _ _ _ hresp).2 (by decide)
  have hpost := (hmeth (("HTTP/1.1 404 Not Found\r\nContent-Length: 2\r\n\r\n[]".data))).2.2
    ⟨("POST".data), ("/x".data), [], []⟩ (by rfl)
  refine ⟨hget, hfail, ?_⟩
  rw [hpost, hfail]

end SharkSpec
